import Mathlib

/-!
# kata-calc: Roman / Arabic command line calculator

A shallow embedding of `main.go` and a verification of its Roman numeral
codec (`parseRoman`, `convertToRoman`), the operand classifier
(`parseOperand`) and the per-line body of `main`.

Modelling conventions.

* A Go `string` is an immutable sequence of bytes: `GoString := List UInt8`.
  `lit` turns an ASCII literal of the source into its bytes.
* A Go `int` is a 64-bit two's complement integer.  It is embedded as `Int`;
  `wrapInt` is applied where an operation of the source can leave the range
  (the arithmetic of `availableOperations`).  Inside the codec every value
  stays far below `2^63`, so no wrap is written there.
* A Go result `(value, error)` is a pair `value × Option Err`; `none` is `nil`.
* The two `for` loops of the codec are unbounded in the source.  They are
  embedded with a fuel argument that counts executions of the loop body;
  running out of fuel is `none`.  The top-level functions supply a fuel, and
  the theorems below show that it is always sufficient.
-/

namespace KataCalc

/-! ## Strings, integers and errors -/

/-- Bytes of a Go `string`. -/
abbrev GoString := List UInt8

/-- Bytes of an ASCII string literal of the source. -/
def lit (s : String) : GoString := s.data.map (fun c => c.toNat.toUInt8)

/-- Wrap-around of a mathematical integer into the range of a 64-bit `int`. -/
def wrapInt (x : Int) : Int := (x + 2 ^ 63) % 2 ^ 64 - 2 ^ 63

/-- Library `strings.HasPrefix(s, prefix)`. -/
def hasPrefix (s pre : GoString) : Bool := pre.isPrefixOf s

/-- The errors created in `main.go`, one constructor per `errors.New` /
`fmt.Errorf` call site, with the values that are formatted into the message. -/
inductive Err where
  | mustBeBinaryOperation
  | operand1Boundaries (operand1 : Int)
  | operand2Boundaries (operand2 : Int)
  | sameNumeralSystems
  | operationNotFound
  | divideByZero
  | undefinedNumeralSystem
  | wrongDigitPosition (prevDigit digit : Int)
  | tooManyEqualDigits (digit : Int)
  | unknownDigits (s : GoString)
  | beyondRomanBoundaries (v : Int)
  deriving DecidableEq, Repr

/-! ## The digit table -/

/-- One entry of `romanToArabic`. -/
structure Transformation where
  str : GoString
  val : Int
  deriving DecidableEq, Repr

/-- The table `romanToArabic` (main.go, lines 119-136), in source order. -/
def romanToArabic : List Transformation :=
  [ ⟨lit "M", 1000⟩, ⟨lit "CM", 900⟩, ⟨lit "D", 500⟩, ⟨lit "CD", 400⟩,
    ⟨lit "C", 100⟩, ⟨lit "XC", 90⟩, ⟨lit "L", 50⟩, ⟨lit "XL", 40⟩,
    ⟨lit "X", 10⟩, ⟨lit "IX", 9⟩, ⟨lit "V", 5⟩, ⟨lit "IV", 4⟩, ⟨lit "I", 1⟩ ]

/-- The package variable `maxRomanNumber`. -/
def maxRomanNumber : Int := 3999

/-! ## `parseRoman` -/

/-- Loop variables of `parseRoman`: `rest` is `s[i:]`. -/
structure ParseState where
  rest : GoString
  prevDigit : Int
  sameDigitInRow : Int
  result : Int
  deriving DecidableEq, Repr

/-- How one pass over the table (the inner `for ... range romanToArabic`)
ends: by a `return`, by `break` with the updated loop variables, or by
running off the table with `transformationFound` still false. -/
inductive Flow where
  | ret (value : Int) (err : Option Err)
  | next (st : ParseState)
  | notFound
  deriving DecidableEq, Repr

/-- The body of the inner loop of `parseRoman` once the entry `t` is a prefix
of the remainder (lines 149-166): ordering check, repetition count, update
of the loop variables and `break`. -/
def digitStep (st : ParseState) (t : Transformation) : Flow :=
  let digit := t.val
  if st.prevDigit < digit then
    Flow.ret 0 (some (Err.wrongDigitPosition st.prevDigit digit))
  else
    let same := if st.prevDigit = digit then st.sameDigitInRow + 1 else 1
    if same > 3 then Flow.ret 0 (some (Err.tooManyEqualDigits digit))
    else Flow.next ⟨st.rest.drop t.str.length, digit, same, st.result + digit⟩

/-- The inner loop of `parseRoman` (lines 145-167) over the remaining table
entries: entries that are not a prefix of the remainder are skipped
(`continue`), the first one that is a prefix decides. -/
def parseInner (st : ParseState) : List Transformation → Flow
  | [] => Flow.notFound
  | t :: ts =>
    if !hasPrefix st.rest t.str then parseInner st ts
    else digitStep st t

/-- The outer loop of `parseRoman` (lines 143-171).  `fuel` bounds the number
of executions of the loop body. -/
def parseLoop (s : GoString) : Nat → ParseState → Option (Int × Option Err)
  | 0, st => if st.rest = [] then some (st.result, none) else none
  | fuel + 1, st =>
    if st.rest = [] then some (st.result, none)
    else
      match parseInner st romanToArabic with
      | Flow.ret v e => some (v, e)
      | Flow.next st1 => parseLoop s fuel st1
      | Flow.notFound => some (0, some (Err.unknownDigits s))

/-- Loop variables of `parseRoman` on entry. -/
def parseInit (s : GoString) : ParseState := ⟨s, maxRomanNumber, 0, 0⟩

/-- The function `parseRoman` (lines 140-174).  Every pass of the loop
consumes at least one byte, so `len(s)` passes are enough. -/
def parseRoman (s : GoString) : Option (Int × Option Err) :=
  parseLoop s s.length (parseInit s)

/-! ## `convertToRoman` -/

/-- The inner loop of `convertToRoman` (lines 182-188): appends the first
entry whose value fits and subtracts it; leaves the variables alone when no
entry fits. -/
def convertInner (v : Int) (result : GoString) : List Transformation → GoString × Int
  | [] => (result, v)
  | t :: ts =>
    if t.val ≤ v then (result ++ t.str, v - t.val)
    else convertInner v result ts

/-- The outer loop `for v > 0` of `convertToRoman` (lines 181-189). -/
def convertLoop : Nat → Int → GoString → Option GoString
  | 0, v, result => if v > 0 then none else some result
  | fuel + 1, v, result =>
    if v > 0 then
      convertLoop fuel (convertInner v result romanToArabic).2
        (convertInner v result romanToArabic).1
    else some result

/-- The function `convertToRoman` (lines 176-191).  Fuel `v` is supplied for
the loop. -/
def convertToRoman (v : Int) : Option (GoString × Option Err) :=
  if v ≤ 0 ∨ v > maxRomanNumber then some ([], some (Err.beyondRomanBoundaries v))
  else (convertLoop v.toNat v []).map (fun r => (r, none))


/-! ## The classifier and the per-line body of `main` -/

/-- The type `numeralSystem` with its three constants. -/
inductive NumeralSystem where
  | Undefined
  | Arabic
  | Roman
  deriving DecidableEq, Repr

/-- Value of a string of decimal digits, most significant first. -/
def decimalValue (ds : GoString) : Nat :=
  ds.foldl (fun acc b => 10 * acc + (b.toNat - 48)) 0

/-- Library `strconv.Atoi` on a 64-bit platform, `none` standing for a non-nil
error: an optional sign `+` or `-`, then at least one byte, all of them
decimal digits, denoting a value that fits a 64-bit `int`. -/
def atoi (s : GoString) : Option Int :=
  let neg := s.head? = some 45
  let ds := if s.head? = some 45 ∨ s.head? = some 43 then s.tail else s
  if ds = [] ∨ ¬ ds.all (fun b => 48 ≤ b ∧ b ≤ 57) then none
  else
    let n : Int := if neg then -(decimalValue ds : Int) else (decimalValue ds : Int)
    if -(2 ^ 63) ≤ n ∧ n < 2 ^ 63 then some n else none

/-- Library `strconv.Itoa`: decimal rendering with a leading `-` for negative
values. -/
def itoa (n : Int) : GoString :=
  if n < 0 then 45 :: lit (Nat.repr n.natAbs) else lit (Nat.repr n.natAbs)

/-- The function `parseOperand` (lines 104-116). -/
def parseOperand (s : GoString) : Option (Int × NumeralSystem × Option Err) :=
  match atoi s with
  | some arabic => some (arabic, NumeralSystem.Arabic, none)
  | none =>
    match parseRoman s with
    | none => none
    | some (roman, none) => some (roman, NumeralSystem.Roman, none)
    | some (_, some _) => some (0, NumeralSystem.Undefined, some Err.undefinedNumeralSystem)

/-- The map `availableOperations` (lines 78-94); `none` is a missing key. -/
def availableOperations (operation : GoString) : Option (Int → Int → Int × Option Err) :=
  if operation = lit "+" then some (fun v1 v2 => (wrapInt (v1 + v2), none))
  else if operation = lit "-" then some (fun v1 v2 => (wrapInt (v1 - v2), none))
  else if operation = lit "*" then some (fun v1 v2 => (wrapInt (v1 * v2), none))
  else if operation = lit "/" then
    some (fun v1 v2 =>
      if v2 = 0 then (0, some Err.divideByZero) else (wrapInt (Int.tdiv v1 v2), none))
  else none

/-- The constants `minOperand` and `maxOperand` of `main`. -/
def minOperand : Int := 1

/-- See `minOperand`. -/
def maxOperand : Int := 10

/-- What one pass of the loop of `main` does after tokenising: it panics with
an error or prints one line. -/
inductive Outcome where
  | panic (e : Err)
  | println (s : GoString)
  deriving DecidableEq, Repr

/-- The rendering of the result (lines 62-72). -/
def render (system : NumeralSystem) (result : Int) : Option Outcome :=
  match system with
  | NumeralSystem.Arabic => some (Outcome.println (itoa result))
  | NumeralSystem.Roman =>
    match convertToRoman result with
    | none => none
    | some (_, some e) => some (Outcome.panic e)
    | some (strResult, none) => some (Outcome.println strResult)
  | NumeralSystem.Undefined => some (Outcome.println [])

/-- One pass of the loop of `main` from the token list on (lines 26-72);
`tokens` is `strings.Fields(strings.ToUpper(strings.TrimSpace(text)))`.
The second range test reads `operand1`, as line 42 does. -/
def mainLoopBody (tokens : List GoString) : Option Outcome :=
  match tokens with
  | [token0, operation, token2] =>
    match parseOperand token0 with
    | none => none
    | some (_, _, some e) => some (Outcome.panic e)
    | some (operand1, operand1System, none) =>
      if operand1 < minOperand ∨ operand1 > maxOperand then
        some (Outcome.panic (Err.operand1Boundaries operand1))
      else
        match parseOperand token2 with
        | none => none
        | some (_, _, some e) => some (Outcome.panic e)
        | some (operand2, operand2System, none) =>
          if operand1 < minOperand ∨ operand1 > maxOperand then
            some (Outcome.panic (Err.operand2Boundaries operand2))
          else if operand1System ≠ operand2System then
            some (Outcome.panic Err.sameNumeralSystems)
          else
            match availableOperations operation with
            | none => some (Outcome.panic Err.operationNotFound)
            | some operationFn =>
              match operationFn operand1 operand2 with
              | (_, some e) => some (Outcome.panic e)
              | (result, none) => render operand1System result
  | _ => some (Outcome.panic Err.mustBeBinaryOperation)

/-! ## Specification-side definitions

The definitions below are not code of the repository.  They state what the
verified properties talk about (the canonical numeral of a value, a run of four equal
bytes, the states the scan passes through) and give the proofs a view of the
numeral as a list of table entries. -/

/-- The seven letters that occur in the symbols of `romanToArabic`:
`I V X L C D M`. -/
def isRomanByte (b : UInt8) : Bool :=
  b = 73 ∨ b = 86 ∨ b = 88 ∨ b = 76 ∨ b = 67 ∨ b = 68 ∨ b = 77

/-- The first entry of `romanToArabic` whose symbol is a prefix of the
remainder: the entry at which the inner loop of `parseRoman` stops skipping. -/
def firstMatch (rest : GoString) : Option Transformation :=
  romanToArabic.find? (fun t => hasPrefix rest t.str)

/-- The loop states that the scan of `parseRoman s` passes through without
having failed: the initial state, and every state in which a pass over the
table ends by `break`. -/
inductive Reaches (s : GoString) : ParseState → Prop where
  | init : Reaches s (parseInit s)
  | step {st st1 : ParseState} : Reaches s st → st.rest ≠ [] →
      parseInner st romanToArabic = Flow.next st1 → Reaches s st1

/-- The string contains the same byte four times in a row. -/
def HasFourInRow (s : GoString) : Prop := ∃ a c b, s = a ++ [c, c, c, c] ++ b

/-- The concatenation of `n` copies of `x`. -/
def repeatStr : Nat → GoString → GoString
  | 0, _ => []
  | n + 1, x => x ++ repeatStr n x

/-- The table `T` of the canonical form: numerals of 0, 1000, 2000, 3000. -/
def thousandsTable : List GoString := [lit "", lit "M", lit "MM", lit "MMM"]

/-- The table `H` of the canonical form: numerals of 0, 100, ..., 900. -/
def hundredsTable : List GoString :=
  [lit "", lit "C", lit "CC", lit "CCC", lit "CD", lit "D", lit "DC", lit "DCC", lit "DCCC",
    lit "CM"]

/-- The table `X` of the canonical form: numerals of 0, 10, ..., 90. -/
def tensTable : List GoString :=
  [lit "", lit "X", lit "XX", lit "XXX", lit "XL", lit "L", lit "LX", lit "LXX", lit "LXXX",
    lit "XC"]

/-- The table `I` of the canonical form: numerals of 0, 1, ..., 9. -/
def unitsTable : List GoString :=
  [lit "", lit "I", lit "II", lit "III", lit "IV", lit "V", lit "VI", lit "VII", lit "VIII",
    lit "IX"]

/-- The canonical Roman numeral of `v` as the specification words it:
`T[v/1000] ++ H[(v/100)%10] ++ X[(v/10)%10] ++ I[v%10]`. -/
def canonicalNumeral (v : Int) : GoString :=
  thousandsTable.getD (v / 1000).toNat [] ++ hundredsTable.getD ((v / 100) % 10).toNat [] ++
    tensTable.getD ((v / 10) % 10).toNat [] ++ unitsTable.getD (v % 10).toNat []

/-- Table entries of the thousands digit `a`. -/
def tokT : Nat → List Transformation
  | 1 => [⟨lit "M", 1000⟩]
  | 2 => [⟨lit "M", 1000⟩, ⟨lit "M", 1000⟩]
  | 3 => [⟨lit "M", 1000⟩, ⟨lit "M", 1000⟩, ⟨lit "M", 1000⟩]
  | _ => []

/-- Table entries of one decimal digit, given the entries worth one, four,
five and nine units of its place. -/
def placeTokens (one four five nine : Transformation) : Nat → List Transformation
  | 1 => [one]
  | 2 => [one, one]
  | 3 => [one, one, one]
  | 4 => [four]
  | 5 => [five]
  | 6 => [five, one]
  | 7 => [five, one, one]
  | 8 => [five, one, one, one]
  | 9 => [nine]
  | _ => []

/-- Table entries of the hundreds digit. -/
def tokH : Nat → List Transformation :=
  placeTokens ⟨lit "C", 100⟩ ⟨lit "CD", 400⟩ ⟨lit "D", 500⟩ ⟨lit "CM", 900⟩

/-- Table entries of the tens digit. -/
def tokX : Nat → List Transformation :=
  placeTokens ⟨lit "X", 10⟩ ⟨lit "XL", 40⟩ ⟨lit "L", 50⟩ ⟨lit "XC", 90⟩

/-- Table entries of the units digit. -/
def tokI : Nat → List Transformation :=
  placeTokens ⟨lit "I", 1⟩ ⟨lit "IV", 4⟩ ⟨lit "V", 5⟩ ⟨lit "IX", 9⟩

/-- Table entries of the value with decimal digits `a b c d`, most significant
first. -/
def canonTokens (a b c d : Nat) : List Transformation :=
  tokT a ++ tokH b ++ tokX c ++ tokI d

/-- The string spelled by a list of table entries. -/
def concatStr : List Transformation → GoString
  | [] => []
  | t :: ts => t.str ++ concatStr ts

/-- The value with decimal digits `a b c d`. -/
def digitsValue (a b c d : Nat) : Int := 1000 * a + 100 * b + 10 * c + d

/-- The repetition count after a digit, as lines 153-157 compute it. -/
def nextSame (prev same digit : Int) : Int := if prev = digit then same + 1 else 1

/-- The checks of `digitStep` run over a list of entries instead of a string:
the final `prevDigit`, `sameDigitInRow` and `result`, or the first error. -/
def scanTokens (prev same res : Int) : List Transformation → Except Err (Int × Int × Int)
  | [] => Except.ok (prev, same, res)
  | t :: ts =>
    if prev < t.val then Except.error (Err.wrongDigitPosition prev t.val)
    else if 3 < nextSame prev same t.val then Except.error (Err.tooManyEqualDigits t.val)
    else scanTokens t.val (nextSame prev same t.val) (res + t.val) ts

/-- What `parseRoman` returns for an outcome of `scanTokens`. -/
def scanResult : Except Err (Int × Int × Int) → Int × Option Err
  | Except.ok (_, _, r) => (r, none)
  | Except.error e => (0, some e)

/-! ## Further specification-side definitions -/

/-- The entry that the inner loop of `convertToRoman` appends for the
remaining value `v`: the first one with `val <= v`, if any. -/
def convertPick (v : Int) : List Transformation → Option Transformation
  | [] => none
  | t :: ts => if t.val ≤ v then some t else convertPick v ts

/-- The entries appended by the outer loop of `convertToRoman`, in order:
`convertLoop` with the appended entries recorded instead of their symbols. -/
def convertTrace : Nat → Int → Option (List Transformation)
  | 0, v => if v > 0 then none else some []
  | fuel + 1, v =>
    if v > 0 then
      match convertPick v romanToArabic with
      | some t => (convertTrace fuel (v - t.val)).map (fun ts => t :: ts)
      | none => convertTrace fuel v
    else some []

/-- The list contains the same element four times in a row. -/
def FourEqual {α : Type} (l : List α) : Prop := ∃ a x b, l = a ++ [x, x, x, x] ++ b

/-- The sum of the values of a list of table entries. -/
def digitSum (ts : List Transformation) : Int := (ts.map (fun t => t.val)).sum

/-- A list of table entries whose values never increase from left to right
and in which no value occurs more than three times in a row. -/
def ValidDigits (ts : List Transformation) : Prop :=
  (∀ t ∈ ts, t ∈ romanToArabic) ∧ List.Chain' (fun t1 t2 => t2.val ≤ t1.val) ts ∧
    ¬ FourEqual (ts.map (fun t => t.val))

/-- The sum of the table values below `p`. -/
def valuesBelow (p : Int) : Int :=
  if 1000 < p then 3109 else if 900 < p then 2109 else if 500 < p then 1209
  else if 400 < p then 709 else if 100 < p then 309 else if 90 < p then 209
  else if 50 < p then 119 else if 40 < p then 69 else if 10 < p then 29
  else if 9 < p then 19 else if 5 < p then 10 else if 4 < p then 5
  else if 1 < p then 1 else 0

/-- The value fits a 64-bit `int`. -/
def inInt64 (x : Int) : Prop := -(2 ^ 63) ≤ x ∧ x < 2 ^ 63

/-- The mathematical result `a op b` for the four operators, `/` truncating
toward zero. -/
def opResult (op : GoString) (a b : Int) : Int :=
  if op = lit "+" then a + b
  else if op = lit "-" then a - b
  else if op = lit "*" then a * b
  else Int.tdiv a b

/-- The decimal rendering of an integer of at most three digits, written out
digit by digit: a `-` for a negative value, then the digits of the absolute
value without leading zeros, each as the byte `'0' + digit`. -/
def decimalRendering (n : Int) : GoString :=
  let m := n.natAbs
  let digits : List Nat :=
    if m < 10 then [m] else if m < 100 then [m / 10, m % 10] else [m / 100, m / 10 % 10, m % 10]
  (if n < 0 then [45] else []) ++ digits.map (fun d => UInt8.ofNat (48 + d))

/-! ## The decoder: one pass of the loop -/

theorem parseInner_find (st : ParseState) (ts : List Transformation) :
    parseInner st ts =
      match ts.find? (fun t => hasPrefix st.rest t.str) with
      | some t => digitStep st t
      | none => Flow.notFound := by
  induction ts with
  | nil => rfl
  | cons t ts ih =>
    by_cases h : hasPrefix st.rest t.str = true
    · simp [parseInner, List.find?, h]
    · simp [parseInner, List.find?, h, ih]

theorem parseInner_firstMatch (st : ParseState) :
    parseInner st romanToArabic =
      match firstMatch st.rest with
      | some t => digitStep st t
      | none => Flow.notFound := parseInner_find st romanToArabic

theorem table_facts : ∀ t ∈ romanToArabic,
    (t.str.length = 1 ∨ t.str.length = 2) ∧ (∀ b ∈ t.str, isRomanByte b = true) ∧
      1 ≤ t.val ∧ t.val ≤ 1000 := by
  decide

theorem firstMatch_some {rest : GoString} {t : Transformation} (h : firstMatch rest = some t) :
    t ∈ romanToArabic ∧ ∃ tl, rest = t.str ++ tl := by
  unfold firstMatch at h
  refine ⟨List.mem_of_find?_eq_some h, ?_⟩
  have hp := List.find?_some h
  simp only [hasPrefix, List.isPrefixOf_iff_prefix] at hp
  obtain ⟨tl, htl⟩ := hp
  exact ⟨tl, htl.symm⟩

theorem firstMatch_nil : firstMatch [] = none := by decide

theorem digitStep_cases (st : ParseState) (t : Transformation) :
    (st.prevDigit < t.val ∧
      digitStep st t = Flow.ret 0 (some (Err.wrongDigitPosition st.prevDigit t.val))) ∨
    (st.prevDigit = t.val ∧ 3 < st.sameDigitInRow + 1 ∧
      digitStep st t = Flow.ret 0 (some (Err.tooManyEqualDigits t.val))) ∨
    (st.prevDigit = t.val ∧ st.sameDigitInRow + 1 ≤ 3 ∧
      digitStep st t = Flow.next ⟨st.rest.drop t.str.length, t.val, st.sameDigitInRow + 1,
        st.result + t.val⟩) ∨
    (t.val < st.prevDigit ∧
      digitStep st t = Flow.next ⟨st.rest.drop t.str.length, t.val, 1, st.result + t.val⟩) := by
  unfold digitStep
  by_cases h1 : st.prevDigit < t.val
  · left; simp [h1]
  · by_cases h2 : st.prevDigit = t.val
    · by_cases h3 : 3 < st.sameDigitInRow + 1
      · right; left; simp [h2, h3]
      · right; right; left
        refine ⟨h2, by omega, ?_⟩
        simp [h2, h3]
    · right; right; right
      refine ⟨by omega, ?_⟩
      simp [h1, h2]

theorem parseLoop_succ (s : GoString) (fuel : Nat) (st : ParseState) (h : st.rest ≠ []) :
    parseLoop s (fuel + 1) st =
      match firstMatch st.rest with
      | none => some (0, some (Err.unknownDigits s))
      | some t =>
        match digitStep st t with
        | Flow.ret v e => some (v, e)
        | Flow.next st1 => parseLoop s fuel st1
        | Flow.notFound => some (0, some (Err.unknownDigits s)) := by
  rw [parseLoop, if_neg h, parseInner_firstMatch]
  cases firstMatch st.rest <;> rfl

/-- When the body is entered and the pass continues, the remainder shrinks. -/
theorem next_rest {st st1 : ParseState} {t : Transformation}
    (hm : firstMatch st.rest = some t) (hs : digitStep st t = Flow.next st1) :
    ∃ tl, st.rest = t.str ++ tl ∧ st1.rest = tl ∧ st1.prevDigit = t.val ∧
      (st1.sameDigitInRow = st.sameDigitInRow + 1 ∨ st1.sameDigitInRow = 1) ∧
      st1.result = st.result + t.val ∧ tl.length < st.rest.length := by
  obtain ⟨hmem, tl, htl⟩ := firstMatch_some hm
  have hlen := (table_facts t hmem).1
  have hl : tl.length < st.rest.length := by
    rw [htl, List.length_append]; omega
  have hd : List.drop t.str.length st.rest = tl := by
    rw [htl, List.drop_left]
  refine ⟨tl, htl, ?_⟩
  rcases digitStep_cases st t with ⟨-, h⟩ | ⟨-, -, h⟩ | ⟨-, -, h⟩ | ⟨-, h⟩
  · rw [h] at hs; exact Flow.noConfusion hs
  · rw [h] at hs; exact Flow.noConfusion hs
  · rw [h] at hs
    injection hs with hs
    subst hs
    exact ⟨hd, rfl, Or.inl rfl, rfl, hl⟩
  · rw [h] at hs
    injection hs with hs
    subst hs
    exact ⟨hd, rfl, Or.inr rfl, rfl, hl⟩

theorem parseLoop_none (s : GoString) (fuel : Nat) (st : ParseState) (h : st.rest ≠ [])
    (hm : firstMatch st.rest = none) :
    parseLoop s (fuel + 1) st = some (0, some (Err.unknownDigits s)) := by
  rw [parseLoop_succ s fuel st h, hm]

theorem parseLoop_ret (s : GoString) (fuel : Nat) (st : ParseState) (h : st.rest ≠ [])
    {t : Transformation} (hm : firstMatch st.rest = some t) {v : Int} {e : Option Err}
    (hs : digitStep st t = Flow.ret v e) :
    parseLoop s (fuel + 1) st = some (v, e) := by
  rw [parseLoop_succ s fuel st h, hm]
  simp only [hs]

theorem parseLoop_next (s : GoString) (fuel : Nat) (st : ParseState) (h : st.rest ≠ [])
    {t : Transformation} (hm : firstMatch st.rest = some t) {st1 : ParseState}
    (hs : digitStep st t = Flow.next st1) :
    parseLoop s (fuel + 1) st = parseLoop s fuel st1 := by
  rw [parseLoop_succ s fuel st h, hm]
  simp only [hs]

theorem digitStep_ret {st : ParseState} {t : Transformation} {v : Int} {e : Option Err}
    (hs : digitStep st t = Flow.ret v e) : v = 0 ∧ ∃ err, e = some err := by
  rcases digitStep_cases st t with ⟨-, h⟩ | ⟨-, -, h⟩ | ⟨-, -, h⟩ | ⟨-, h⟩
  · rw [h] at hs; injection hs with h1 h2; exact ⟨h1.symm, _, h2.symm⟩
  · rw [h] at hs; injection hs with h1 h2; exact ⟨h1.symm, _, h2.symm⟩
  · rw [h] at hs; exact Flow.noConfusion hs
  · rw [h] at hs; exact Flow.noConfusion hs

theorem digitStep_ne_notFound (st : ParseState) (t : Transformation) :
    digitStep st t ≠ Flow.notFound := by
  rcases digitStep_cases st t with ⟨-, h⟩ | ⟨-, -, h⟩ | ⟨-, -, h⟩ | ⟨-, h⟩ <;>
    rw [h] <;> exact Flow.noConfusion

theorem parseLoop_error_of_mem (s : GoString) (fuel : Nat) : ∀ st : ParseState,
    st.rest.length ≤ fuel → (∃ b ∈ st.rest, isRomanByte b = false) →
    ∃ e, parseLoop s fuel st = some (0, some e) := by
  induction fuel with
  | zero =>
    intro st hlen ⟨b, hb, _⟩
    have : st.rest = [] := List.length_eq_zero.mp (by omega)
    rw [this] at hb
    simp at hb
  | succ n ih =>
    intro st hlen ⟨b, hb, hbad⟩
    have hne : st.rest ≠ [] := List.ne_nil_of_mem hb
    cases hm : firstMatch st.rest with
    | none => exact ⟨_, parseLoop_none s n st hne hm⟩
    | some t =>
      obtain ⟨hmem, -⟩ := firstMatch_some hm
      have hroman := (table_facts t hmem).2.1
      cases hs : digitStep st t with
      | notFound => exact absurd hs (digitStep_ne_notFound st t)
      | ret v e =>
        obtain ⟨rfl, err, rfl⟩ := digitStep_ret hs
        exact ⟨err, parseLoop_ret s n st hne hm hs⟩
      | next st1 =>
        obtain ⟨tl, htl, hrest, -, -, -, hlt⟩ := next_rest hm hs
        rw [parseLoop_next s n st hne hm hs]
        apply ih
        · rw [hrest]; omega
        · rw [hrest]
          rw [htl, List.mem_append] at hb
          rcases hb with hb | hb
          · rw [hroman b hb] at hbad
            exact absurd hbad (by simp)
          · exact ⟨b, hb, hbad⟩

theorem firstMatch_bad_head (b : UInt8) (tl : GoString) (hbad : isRomanByte b = false) :
    firstMatch (b :: tl) = none := by
  cases hm : firstMatch (b :: tl) with
  | none => rfl
  | some t =>
    obtain ⟨hmem, tl1, htl⟩ := firstMatch_some hm
    obtain ⟨hlen, hroman, -⟩ := table_facts t hmem
    cases hstr : t.str with
    | nil => rw [hstr] at hlen; simp at hlen
    | cons c cs =>
      rw [hstr] at htl
      injection htl with h1 h2
      have := hroman c (by rw [hstr]; simp)
      rw [← h1, hbad] at this
      exact absurd this (by simp)

/-! ## The decoder: fuel and reachable states -/

/-- The result of the loop does not depend on the fuel once it covers the
remainder. -/
theorem parseLoop_fuel (s : GoString) (f1 : Nat) : ∀ (f2 : Nat) (st : ParseState),
    st.rest.length ≤ f1 → st.rest.length ≤ f2 → parseLoop s f1 st = parseLoop s f2 st := by
  induction f1 with
  | zero =>
    intro f2 st h1 _
    have hnil : st.rest = [] := List.length_eq_zero.mp (by omega)
    cases f2 <;> simp [parseLoop, hnil]
  | succ n ih =>
    intro f2 st h1 h2
    by_cases hnil : st.rest = []
    · cases f2 <;> simp [parseLoop, hnil]
    · cases f2 with
      | zero =>
        have : st.rest.length ≠ 0 := fun h => hnil (List.length_eq_zero.mp h)
        omega
      | succ m =>
        cases hm : firstMatch st.rest with
        | none => rw [parseLoop_none s n st hnil hm, parseLoop_none s m st hnil hm]
        | some t =>
          cases hs : digitStep st t with
          | notFound => exact absurd hs (digitStep_ne_notFound st t)
          | ret v e => rw [parseLoop_ret s n st hnil hm hs, parseLoop_ret s m st hnil hm hs]
          | next st1 =>
            obtain ⟨tl, htl, hrest, -, -, -, hlt⟩ := next_rest hm hs
            rw [parseLoop_next s n st hnil hm hs, parseLoop_next s m st hnil hm hs]
            exact ih m st1 (by rw [hrest]; omega) (by rw [hrest]; omega)

theorem parseLoop_isSome (s : GoString) (fuel : Nat) : ∀ st : ParseState,
    st.rest.length ≤ fuel → ∃ r, parseLoop s fuel st = some r := by
  induction fuel with
  | zero =>
    intro st h
    have hnil : st.rest = [] := List.length_eq_zero.mp (by omega)
    exact ⟨(st.result, none), by simp [parseLoop, hnil]⟩
  | succ n ih =>
    intro st h
    by_cases hnil : st.rest = []
    · exact ⟨(st.result, none), by simp [parseLoop, hnil]⟩
    · cases hm : firstMatch st.rest with
      | none => exact ⟨_, parseLoop_none s n st hnil hm⟩
      | some t =>
        cases hs : digitStep st t with
        | notFound => exact absurd hs (digitStep_ne_notFound st t)
        | ret v e => exact ⟨_, parseLoop_ret s n st hnil hm hs⟩
        | next st1 =>
          obtain ⟨tl, htl, hrest, -, -, -, hlt⟩ := next_rest hm hs
          rw [parseLoop_next s n st hnil hm hs]
          exact ih st1 (by rw [hrest]; omega)

/-- The function `parseRoman` returns on every string: the fuel `len(s)` is
never exhausted. -/
theorem parseRoman_total (s : GoString) : ∃ r, parseRoman s = some r :=
  parseLoop_isSome s s.length (parseInit s) (Nat.le_refl _)

theorem reaches_parseLoop {s : GoString} {st : ParseState} (h : Reaches s st) :
    ∀ fuel, st.rest.length ≤ fuel → parseLoop s fuel st = parseRoman s := by
  induction h with
  | init =>
    intro fuel hf
    exact parseLoop_fuel s fuel s.length (parseInit s) hf (Nat.le_refl _)
  | step hreach hne hnext ih =>
    rename_i st0 st1
    intro fuel hf
    rw [parseInner_firstMatch] at hnext
    cases hm : firstMatch st0.rest with
    | none => rw [hm] at hnext; exact Flow.noConfusion hnext
    | some t =>
      rw [hm] at hnext
      simp only at hnext
      obtain ⟨tl, htl, hrest, -, -, -, hlt⟩ := next_rest hm hnext
      rw [← ih (st0.rest.length + 1) (by omega), parseLoop_next s _ st0 hne hm hnext]
      exact parseLoop_fuel s fuel _ st1 hf (by rw [hrest]; omega)

/-! ## The decoder: four equal bytes in a row -/

set_option maxRecDepth 100000 in
theorem firstMatch_double_fin : ∀ f : Fin (2 ^ 8),
    firstMatch [UInt8.mk (BitVec.ofFin f), UInt8.mk (BitVec.ofFin f)] =
      firstMatch [UInt8.mk (BitVec.ofFin f)] := by
  decide

theorem find?_ext {α : Type} (p q : α → Bool) (l : List α) (h : ∀ x ∈ l, p x = q x) :
    l.find? p = l.find? q := by
  induction l with
  | nil => rfl
  | cons x xs ih =>
    have hx := h x (List.mem_cons_self x xs)
    have hxs := ih (fun y hy => h y (List.mem_cons_of_mem x hy))
    simp only [List.find?, hx, hxs]

/-- The first matching entry depends on the first two bytes only. -/
theorem firstMatch_take2 (rest : GoString) : firstMatch rest = firstMatch (rest.take 2) := by
  unfold firstMatch
  apply find?_ext
  intro t ht
  have hlen := (table_facts t ht).1
  have hiff : t.str <+: rest ↔ t.str <+: rest.take 2 := by
    rw [List.prefix_take_iff]
    constructor
    · intro h; exact ⟨h, by omega⟩
    · intro h; exact h.1
  by_cases hp : t.str <+: rest
  · have h1 : hasPrefix rest t.str = true := by
      simpa [hasPrefix, List.isPrefixOf_iff_prefix] using hp
    have h2 : hasPrefix (rest.take 2) t.str = true := by
      simpa [hasPrefix, List.isPrefixOf_iff_prefix] using hiff.mp hp
    rw [h1, h2]
  · have h1 : hasPrefix rest t.str = false :=
      Bool.eq_false_iff.mpr (fun h => hp (List.isPrefixOf_iff_prefix.mp h))
    have h2 : hasPrefix (rest.take 2) t.str = false :=
      Bool.eq_false_iff.mpr (fun h => hp (hiff.mpr (List.isPrefixOf_iff_prefix.mp h)))
    rw [h1, h2]

theorem firstMatch_double (c : UInt8) (tl : GoString) :
    firstMatch (c :: c :: tl) = firstMatch [c] := by
  rw [firstMatch_take2]
  cases c with
  | mk v =>
    cases v with
    | ofFin f => exact firstMatch_double_fin f

theorem firstMatch_single {c : UInt8} {u : Transformation} (h : firstMatch [c] = some u) :
    u.str = [c] := by
  obtain ⟨hmem, tl, htl⟩ := firstMatch_some h
  have hlen := (table_facts u hmem).1
  cases hstr : u.str with
  | nil => rw [hstr] at hlen; simp at hlen
  | cons x xs =>
    rw [hstr] at htl
    cases xs with
    | nil => simp at htl; rw [htl.1]
    | cons y ys => simp at htl

theorem table_head_single : ∀ t ∈ romanToArabic, ∀ c ∈ t.str, t.str.head? = some c →
    ∃ u ∈ romanToArabic, firstMatch [c] = some u ∧ u.val ≤ t.val := by
  decide

theorem table_pair_single : ∀ t ∈ romanToArabic, ∀ x ∈ t.str, ∀ c ∈ t.str, t.str = [x, c] →
    ∃ u ∈ romanToArabic, firstMatch [c] = some u ∧ t.val < u.val := by
  decide

theorem firstMatch_head_single {c : UInt8} {tl : GoString} {t : Transformation}
    (h : firstMatch (c :: tl) = some t) :
    ∃ u, firstMatch [c] = some u ∧ u.val ≤ t.val := by
  obtain ⟨hmem, tl1, htl⟩ := firstMatch_some h
  have hlen := (table_facts t hmem).1
  cases hstr : t.str with
  | nil => rw [hstr] at hlen; simp at hlen
  | cons x xs =>
    rw [hstr] at htl
    injection htl with h1 h2
    subst h1
    obtain ⟨u, -, hu, hle⟩ := table_head_single t hmem c (by rw [hstr]; simp) (by rw [hstr]; rfl)
    exact ⟨u, hu, hle⟩

/-- A run of `k + 1` copies of `c` ahead, entered after a digit not above the
value of `c` and with the repetition count already too high for the run. -/
theorem run_error (s : GoString) (c : UInt8) (u : Transformation)
    (hu : firstMatch [c] = some u) (k : Nat) : ∀ (b : GoString) (st : ParseState) (fuel : Nat),
    st.rest = List.replicate (k + 1) c ++ b → st.prevDigit ≤ u.val →
    (st.prevDigit = u.val → 4 ≤ st.sameDigitInRow + (k + 1)) → st.rest.length ≤ fuel →
    ∃ e, parseLoop s fuel st = some (0, some e) := by
  induction k with
  | zero =>
    intro b st fuel hrest hle hsame hfuel
    have hrest1 : st.rest = c :: b := by simpa using hrest
    have hne : st.rest ≠ [] := by rw [hrest1]; simp
    cases fuel with
    | zero => rw [hrest1] at hfuel; simp at hfuel
    | succ n =>
      cases hm : firstMatch st.rest with
      | none => exact ⟨_, parseLoop_none s n st hne hm⟩
      | some t =>
        rw [hrest1] at hm
        obtain ⟨u1, hu1, hle1⟩ := firstMatch_head_single hm
        rw [hu] at hu1
        injection hu1 with hu1
        subst hu1
        rw [← hrest1] at hm
        rcases digitStep_cases st t with ⟨-, h⟩ | ⟨-, -, h⟩ | ⟨h1, h2, h⟩ | ⟨h1, h⟩
        · exact ⟨_, parseLoop_ret s n st hne hm h⟩
        · exact ⟨_, parseLoop_ret s n st hne hm h⟩
        · have := hsame (by omega)
          omega
        · omega
  | succ k ih =>
    intro b st fuel hrest hle hsame hfuel
    have hrest1 : st.rest = c :: c :: (List.replicate k c ++ b) := by
      rw [hrest]; rfl
    have hne : st.rest ≠ [] := by rw [hrest1]; simp
    cases fuel with
    | zero => rw [hrest1] at hfuel; simp at hfuel
    | succ n =>
      have hm : firstMatch st.rest = some u := by rw [hrest1, firstMatch_double, hu]
      have hstr := firstMatch_single hu
      rcases digitStep_cases st u with ⟨-, h⟩ | ⟨-, -, h⟩ | ⟨h1, h2, h⟩ | ⟨h1, h⟩
      · exact ⟨_, parseLoop_ret s n st hne hm h⟩
      · exact ⟨_, parseLoop_ret s n st hne hm h⟩
      · have hdrop : List.drop u.str.length st.rest = List.replicate (k + 1) c ++ b := by
          rw [hstr, hrest1]; rfl
        rw [parseLoop_next s n st hne hm h, hdrop]
        apply ih b
        · rfl
        · exact Int.le_refl _
        · intro _
          have := hsame h1
          simp only []; omega
        · rw [hrest] at hfuel
          simp only [List.length_append, List.length_replicate] at hfuel ⊢
          omega
      · omega

/-- Four equal bytes in a row anywhere in the remainder make the scan fail. -/
theorem four_error (s : GoString) (fuel : Nat) : ∀ st : ParseState,
    (∃ a c b, st.rest = a ++ [c, c, c, c] ++ b) → 0 ≤ st.sameDigitInRow →
    st.rest.length ≤ fuel → ∃ e, parseLoop s fuel st = some (0, some e) := by
  induction fuel with
  | zero =>
    intro st ⟨a, c, b, hab⟩ _ hfuel
    rw [hab] at hfuel
    simp at hfuel
  | succ n ih =>
    intro st ⟨a, c, b, hab⟩ hsame hfuel
    have hne : st.rest ≠ [] := by rw [hab]; simp
    cases hm : firstMatch st.rest with
    | none => exact ⟨_, parseLoop_none s n st hne hm⟩
    | some t =>
      cases hs : digitStep st t with
      | notFound => exact absurd hs (digitStep_ne_notFound st t)
      | ret v e =>
        obtain ⟨rfl, err, rfl⟩ := digitStep_ret hs
        exact ⟨err, parseLoop_ret s n st hne hm hs⟩
      | next st1 =>
        obtain ⟨tl, htl, hrest, hprev, hsame1, -, hlt⟩ := next_rest hm hs
        obtain ⟨hmem, -⟩ := firstMatch_some hm
        have hlen := (table_facts t hmem).1
        rw [parseLoop_next s n st hne hm hs]
        have hsame2 : 0 ≤ st1.sameDigitInRow ∧ 1 ≤ st1.sameDigitInRow := by
          rcases hsame1 with h | h <;> omega
        have hfuel1 : st1.rest.length ≤ n := by rw [hrest]; omega
        have hrun : ∀ u, firstMatch [c] = some u → t.val ≤ u.val →
            (t.val = u.val → 1 ≤ st1.sameDigitInRow) → tl = c :: c :: c :: b →
            ∃ e, parseLoop s n st1 = some (0, some e) := by
          intro u hu hle hone htl3
          apply run_error s c u hu 2 b st1 n
          · rw [hrest, htl3]; rfl
          · rw [hprev]; exact hle
          · intro h
            rw [hprev] at h
            have := hone h
            omega
          · exact hfuel1
        rw [hab] at htl
        cases hstr : t.str with
        | nil => rw [hstr] at hlen; simp at hlen
        | cons x xs =>
          rw [hstr] at htl hlen
          cases xs with
          | nil =>
            cases a with
            | nil =>
              simp only [List.nil_append, List.cons_append, List.cons.injEq] at htl
              obtain ⟨hx, htl3⟩ := htl
              subst hx
              have hm1 : firstMatch [c] = some t := by
                rw [← firstMatch_double c (c :: c :: b), ← hm, hab]; rfl
              exact hrun t hm1 (Int.le_refl _) (fun _ => hsame2.2) htl3.symm
            | cons y a1 =>
              simp only [List.nil_append, List.cons_append, List.cons.injEq] at htl
              apply ih st1 ⟨a1, c, b, ?_⟩ hsame2.1 hfuel1
              rw [hrest, ← htl.2]
          | cons y ys =>
            cases ys with
            | cons z zs => simp at hlen
            | nil =>
              cases a with
              | nil =>
                simp only [List.nil_append, List.cons_append, List.cons.injEq] at htl
                obtain ⟨hx, hy, htl3⟩ := htl
                subst hx
                subst hy
                have hm1 : firstMatch [c] = some t := by
                  rw [← firstMatch_double c (c :: c :: b), ← hm, hab]; rfl
                rw [firstMatch_single hm1] at hstr
                simp at hstr
              | cons x1 a1 =>
                cases a1 with
                | nil =>
                  simp only [List.nil_append, List.cons_append, List.cons.injEq] at htl
                  obtain ⟨hx, hy, htl3⟩ := htl
                  subst hx
                  subst hy
                  obtain ⟨u, -, hu, hlt1⟩ := table_pair_single t hmem x1 (by rw [hstr]; simp)
                    c (by rw [hstr]; simp) hstr
                  exact hrun u hu (by omega) (fun h => by omega) htl3.symm
                | cons y1 a2 =>
                  simp only [List.nil_append, List.cons_append, List.cons.injEq] at htl
                  apply ih st1 ⟨a2, c, b, ?_⟩ hsame2.1 hfuel1
                  rw [hrest, ← htl.2.2]

/-! ## The encoder -/

theorem convertInner_table (v : Int) (r : GoString) :
    convertInner v r romanToArabic =
      if 1000 ≤ v then (r ++ lit "M", v - 1000) else
      if 900 ≤ v then (r ++ lit "CM", v - 900) else
      if 500 ≤ v then (r ++ lit "D", v - 500) else
      if 400 ≤ v then (r ++ lit "CD", v - 400) else
      if 100 ≤ v then (r ++ lit "C", v - 100) else
      if 90 ≤ v then (r ++ lit "XC", v - 90) else
      if 50 ≤ v then (r ++ lit "L", v - 50) else
      if 40 ≤ v then (r ++ lit "XL", v - 40) else
      if 10 ≤ v then (r ++ lit "X", v - 10) else
      if 9 ≤ v then (r ++ lit "IX", v - 9) else
      if 5 ≤ v then (r ++ lit "V", v - 5) else
      if 4 ≤ v then (r ++ lit "IV", v - 4) else
      if 1 ≤ v then (r ++ lit "I", v - 1) else (r, v) := rfl

theorem convertInner_pick (v : Int) (r : GoString) :
    (1000 ≤ v → convertInner v r romanToArabic = (r ++ lit "M", v - 1000)) ∧
    (900 ≤ v → v < 1000 → convertInner v r romanToArabic = (r ++ lit "CM", v - 900)) ∧
    (500 ≤ v → v < 900 → convertInner v r romanToArabic = (r ++ lit "D", v - 500)) ∧
    (400 ≤ v → v < 500 → convertInner v r romanToArabic = (r ++ lit "CD", v - 400)) ∧
    (100 ≤ v → v < 400 → convertInner v r romanToArabic = (r ++ lit "C", v - 100)) ∧
    (90 ≤ v → v < 100 → convertInner v r romanToArabic = (r ++ lit "XC", v - 90)) ∧
    (50 ≤ v → v < 90 → convertInner v r romanToArabic = (r ++ lit "L", v - 50)) ∧
    (40 ≤ v → v < 50 → convertInner v r romanToArabic = (r ++ lit "XL", v - 40)) ∧
    (10 ≤ v → v < 40 → convertInner v r romanToArabic = (r ++ lit "X", v - 10)) ∧
    (9 ≤ v → v < 10 → convertInner v r romanToArabic = (r ++ lit "IX", v - 9)) ∧
    (5 ≤ v → v < 9 → convertInner v r romanToArabic = (r ++ lit "V", v - 5)) ∧
    (4 ≤ v → v < 5 → convertInner v r romanToArabic = (r ++ lit "IV", v - 4)) ∧
    (1 ≤ v → v < 4 → convertInner v r romanToArabic = (r ++ lit "I", v - 1)) := by
  refine ⟨?_, ?_, ?_, ?_, ?_, ?_, ?_, ?_, ?_, ?_, ?_, ?_, ?_⟩
  · intro h1
    rw [convertInner_table, if_pos h1]
  · intro h1 h2
    rw [convertInner_table, if_neg (show ¬ (1000 : Int) ≤ v by omega), if_pos h1]
  · intro h1 h2
    rw [convertInner_table, if_neg (show ¬ (1000 : Int) ≤ v by omega), if_neg (show ¬ (900 : Int) ≤ v by omega), if_pos h1]
  · intro h1 h2
    rw [convertInner_table, if_neg (show ¬ (1000 : Int) ≤ v by omega), if_neg (show ¬ (900 : Int) ≤ v by omega), if_neg (show ¬ (500 : Int) ≤ v by omega), if_pos h1]
  · intro h1 h2
    rw [convertInner_table, if_neg (show ¬ (1000 : Int) ≤ v by omega), if_neg (show ¬ (900 : Int) ≤ v by omega), if_neg (show ¬ (500 : Int) ≤ v by omega), if_neg (show ¬ (400 : Int) ≤ v by omega), if_pos h1]
  · intro h1 h2
    rw [convertInner_table, if_neg (show ¬ (1000 : Int) ≤ v by omega), if_neg (show ¬ (900 : Int) ≤ v by omega), if_neg (show ¬ (500 : Int) ≤ v by omega), if_neg (show ¬ (400 : Int) ≤ v by omega), if_neg (show ¬ (100 : Int) ≤ v by omega), if_pos h1]
  · intro h1 h2
    rw [convertInner_table, if_neg (show ¬ (1000 : Int) ≤ v by omega), if_neg (show ¬ (900 : Int) ≤ v by omega), if_neg (show ¬ (500 : Int) ≤ v by omega), if_neg (show ¬ (400 : Int) ≤ v by omega), if_neg (show ¬ (100 : Int) ≤ v by omega), if_neg (show ¬ (90 : Int) ≤ v by omega), if_pos h1]
  · intro h1 h2
    rw [convertInner_table, if_neg (show ¬ (1000 : Int) ≤ v by omega), if_neg (show ¬ (900 : Int) ≤ v by omega), if_neg (show ¬ (500 : Int) ≤ v by omega), if_neg (show ¬ (400 : Int) ≤ v by omega), if_neg (show ¬ (100 : Int) ≤ v by omega), if_neg (show ¬ (90 : Int) ≤ v by omega), if_neg (show ¬ (50 : Int) ≤ v by omega), if_pos h1]
  · intro h1 h2
    rw [convertInner_table, if_neg (show ¬ (1000 : Int) ≤ v by omega), if_neg (show ¬ (900 : Int) ≤ v by omega), if_neg (show ¬ (500 : Int) ≤ v by omega), if_neg (show ¬ (400 : Int) ≤ v by omega), if_neg (show ¬ (100 : Int) ≤ v by omega), if_neg (show ¬ (90 : Int) ≤ v by omega), if_neg (show ¬ (50 : Int) ≤ v by omega), if_neg (show ¬ (40 : Int) ≤ v by omega), if_pos h1]
  · intro h1 h2
    rw [convertInner_table, if_neg (show ¬ (1000 : Int) ≤ v by omega), if_neg (show ¬ (900 : Int) ≤ v by omega), if_neg (show ¬ (500 : Int) ≤ v by omega), if_neg (show ¬ (400 : Int) ≤ v by omega), if_neg (show ¬ (100 : Int) ≤ v by omega), if_neg (show ¬ (90 : Int) ≤ v by omega), if_neg (show ¬ (50 : Int) ≤ v by omega), if_neg (show ¬ (40 : Int) ≤ v by omega), if_neg (show ¬ (10 : Int) ≤ v by omega), if_pos h1]
  · intro h1 h2
    rw [convertInner_table, if_neg (show ¬ (1000 : Int) ≤ v by omega), if_neg (show ¬ (900 : Int) ≤ v by omega), if_neg (show ¬ (500 : Int) ≤ v by omega), if_neg (show ¬ (400 : Int) ≤ v by omega), if_neg (show ¬ (100 : Int) ≤ v by omega), if_neg (show ¬ (90 : Int) ≤ v by omega), if_neg (show ¬ (50 : Int) ≤ v by omega), if_neg (show ¬ (40 : Int) ≤ v by omega), if_neg (show ¬ (10 : Int) ≤ v by omega), if_neg (show ¬ (9 : Int) ≤ v by omega), if_pos h1]
  · intro h1 h2
    rw [convertInner_table, if_neg (show ¬ (1000 : Int) ≤ v by omega), if_neg (show ¬ (900 : Int) ≤ v by omega), if_neg (show ¬ (500 : Int) ≤ v by omega), if_neg (show ¬ (400 : Int) ≤ v by omega), if_neg (show ¬ (100 : Int) ≤ v by omega), if_neg (show ¬ (90 : Int) ≤ v by omega), if_neg (show ¬ (50 : Int) ≤ v by omega), if_neg (show ¬ (40 : Int) ≤ v by omega), if_neg (show ¬ (10 : Int) ≤ v by omega), if_neg (show ¬ (9 : Int) ≤ v by omega), if_neg (show ¬ (5 : Int) ≤ v by omega), if_pos h1]
  · intro h1 h2
    rw [convertInner_table, if_neg (show ¬ (1000 : Int) ≤ v by omega), if_neg (show ¬ (900 : Int) ≤ v by omega), if_neg (show ¬ (500 : Int) ≤ v by omega), if_neg (show ¬ (400 : Int) ≤ v by omega), if_neg (show ¬ (100 : Int) ≤ v by omega), if_neg (show ¬ (90 : Int) ≤ v by omega), if_neg (show ¬ (50 : Int) ≤ v by omega), if_neg (show ¬ (40 : Int) ≤ v by omega), if_neg (show ¬ (10 : Int) ≤ v by omega), if_neg (show ¬ (9 : Int) ≤ v by omega), if_neg (show ¬ (5 : Int) ≤ v by omega), if_neg (show ¬ (4 : Int) ≤ v by omega), if_pos h1]

theorem tokT_zero : tokT 0 = [] := rfl

theorem placeTokens_zero (one four five nine : Transformation) :
    placeTokens one four five nine 0 = [] := rfl

theorem placeTokens_cases (one four five nine : Transformation) (k : Nat) (h0 : 0 < k)
    (h1 : k < 10) :
    (k = 9 ∧ placeTokens one four five nine k = nine :: placeTokens one four five nine 0) ∨
    (5 ≤ k ∧ k < 9 ∧
      placeTokens one four five nine k = five :: placeTokens one four five nine (k - 5)) ∨
    (k = 4 ∧ placeTokens one four five nine k = four :: placeTokens one four five nine 0) ∨
    (k < 4 ∧ placeTokens one four five nine k = one :: placeTokens one four five nine (k - 1)) := by
  interval_cases k <;> simp [placeTokens]

theorem convert_step (a b c d : Nat) (ha : a < 4) (hb : b < 10) (hc : c < 10) (hd : d < 10)
    (hpos : 0 < digitsValue a b c d) (r : GoString) :
    ∃ t a1 b1 c1 d1, a1 < 4 ∧ b1 < 10 ∧ c1 < 10 ∧ d1 < 10 ∧
      canonTokens a b c d = t :: canonTokens a1 b1 c1 d1 ∧
      convertInner (digitsValue a b c d) r romanToArabic = (r ++ t.str, digitsValue a1 b1 c1 d1) := by
  obtain ⟨hM, hCM, hD, hCD, hC, hXC, hL, hXL, hX, hIX, hV, hIV, hI⟩ :=
    convertInner_pick (digitsValue a b c d) r
  unfold digitsValue at *
  rcases Nat.eq_zero_or_pos a with ha0 | ha0
  · subst ha0
    rcases Nat.eq_zero_or_pos b with hb0 | hb0
    · subst hb0
      rcases Nat.eq_zero_or_pos c with hc0 | hc0
      · subst hc0
        have hd0 : 0 < d := by omega
        rcases placeTokens_cases ⟨lit "I", 1⟩ ⟨lit "IV", 4⟩ ⟨lit "V", 5⟩ ⟨lit "IX", 9⟩ d hd0 hd
          with ⟨h, e⟩ | ⟨h, h2, e⟩ | ⟨h, e⟩ | ⟨h, e⟩
        · refine ⟨⟨lit "IX", 9⟩, 0, 0, 0, 0, by omega, by omega, by omega, by omega, ?_, ?_⟩
          · simp only [canonTokens, tokH, tokX, tokI, e, tokT_zero, placeTokens_zero, List.nil_append,
              List.cons_append]
          · rw [hIX (by omega) (by omega)]
            exact Prod.ext rfl (by simp only; omega)
        · refine ⟨⟨lit "V", 5⟩, 0, 0, 0, d - 5, by omega, by omega, by omega, by omega, ?_, ?_⟩
          · simp only [canonTokens, tokH, tokX, tokI, e, tokT_zero, placeTokens_zero, List.nil_append,
              List.cons_append]
          · rw [hV (by omega) (by omega)]
            exact Prod.ext rfl (by simp only; omega)
        · refine ⟨⟨lit "IV", 4⟩, 0, 0, 0, 0, by omega, by omega, by omega, by omega, ?_, ?_⟩
          · simp only [canonTokens, tokH, tokX, tokI, e, tokT_zero, placeTokens_zero, List.nil_append,
              List.cons_append]
          · rw [hIV (by omega) (by omega)]
            exact Prod.ext rfl (by simp only; omega)
        · refine ⟨⟨lit "I", 1⟩, 0, 0, 0, d - 1, by omega, by omega, by omega, by omega, ?_, ?_⟩
          · simp only [canonTokens, tokH, tokX, tokI, e, tokT_zero, placeTokens_zero, List.nil_append,
              List.cons_append]
          · rw [hI (by omega) (by omega)]
            exact Prod.ext rfl (by simp only; omega)
      rcases placeTokens_cases ⟨lit "X", 10⟩ ⟨lit "XL", 40⟩ ⟨lit "L", 50⟩ ⟨lit "XC", 90⟩ c hc0 hc
        with ⟨h, e⟩ | ⟨h, h2, e⟩ | ⟨h, e⟩ | ⟨h, e⟩
      · refine ⟨⟨lit "XC", 90⟩, 0, 0, 0, d, by omega, by omega, by omega, by omega, ?_, ?_⟩
        · simp only [canonTokens, tokH, tokX, tokI, e, tokT_zero, placeTokens_zero, List.nil_append,
            List.cons_append]
        · rw [hXC (by omega) (by omega)]
          exact Prod.ext rfl (by simp only; omega)
      · refine ⟨⟨lit "L", 50⟩, 0, 0, c - 5, d, by omega, by omega, by omega, by omega, ?_, ?_⟩
        · simp only [canonTokens, tokH, tokX, tokI, e, tokT_zero, placeTokens_zero, List.nil_append,
            List.cons_append]
        · rw [hL (by omega) (by omega)]
          exact Prod.ext rfl (by simp only; omega)
      · refine ⟨⟨lit "XL", 40⟩, 0, 0, 0, d, by omega, by omega, by omega, by omega, ?_, ?_⟩
        · simp only [canonTokens, tokH, tokX, tokI, e, tokT_zero, placeTokens_zero, List.nil_append,
            List.cons_append]
        · rw [hXL (by omega) (by omega)]
          exact Prod.ext rfl (by simp only; omega)
      · refine ⟨⟨lit "X", 10⟩, 0, 0, c - 1, d, by omega, by omega, by omega, by omega, ?_, ?_⟩
        · simp only [canonTokens, tokH, tokX, tokI, e, tokT_zero, placeTokens_zero, List.nil_append,
            List.cons_append]
        · rw [hX (by omega) (by omega)]
          exact Prod.ext rfl (by simp only; omega)
    rcases placeTokens_cases ⟨lit "C", 100⟩ ⟨lit "CD", 400⟩ ⟨lit "D", 500⟩ ⟨lit "CM", 900⟩ b hb0 hb
      with ⟨h, e⟩ | ⟨h, h2, e⟩ | ⟨h, e⟩ | ⟨h, e⟩
    · refine ⟨⟨lit "CM", 900⟩, 0, 0, c, d, by omega, by omega, by omega, by omega, ?_, ?_⟩
      · simp only [canonTokens, tokH, tokX, tokI, e, tokT_zero, placeTokens_zero, List.nil_append,
          List.cons_append]
      · rw [hCM (by omega) (by omega)]
        exact Prod.ext rfl (by simp only; omega)
    · refine ⟨⟨lit "D", 500⟩, 0, b - 5, c, d, by omega, by omega, by omega, by omega, ?_, ?_⟩
      · simp only [canonTokens, tokH, tokX, tokI, e, tokT_zero, placeTokens_zero, List.nil_append,
          List.cons_append]
      · rw [hD (by omega) (by omega)]
        exact Prod.ext rfl (by simp only; omega)
    · refine ⟨⟨lit "CD", 400⟩, 0, 0, c, d, by omega, by omega, by omega, by omega, ?_, ?_⟩
      · simp only [canonTokens, tokH, tokX, tokI, e, tokT_zero, placeTokens_zero, List.nil_append,
          List.cons_append]
      · rw [hCD (by omega) (by omega)]
        exact Prod.ext rfl (by simp only; omega)
    · refine ⟨⟨lit "C", 100⟩, 0, b - 1, c, d, by omega, by omega, by omega, by omega, ?_, ?_⟩
      · simp only [canonTokens, tokH, tokX, tokI, e, tokT_zero, placeTokens_zero, List.nil_append,
          List.cons_append]
      · rw [hC (by omega) (by omega)]
        exact Prod.ext rfl (by simp only; omega)
  · refine ⟨⟨lit "M", 1000⟩, a - 1, b, c, d, by omega, hb, hc, hd, ?_, ?_⟩
    · interval_cases a <;> simp [canonTokens, tokT]
    · rw [hM (by omega)]
      exact Prod.ext rfl (by simp only; omega)

theorem digitsValue_zero (a b c d : Nat) (h : ¬ 0 < digitsValue a b c d) :
    a = 0 ∧ b = 0 ∧ c = 0 ∧ d = 0 := by
  unfold digitsValue at h
  omega

theorem concatStr_cons (t : Transformation) (ts : List Transformation) :
    concatStr (t :: ts) = t.str ++ concatStr ts := rfl

theorem convertLoop_tokens (fuel : Nat) : ∀ (a b c d : Nat), a < 4 → b < 10 → c < 10 → d < 10 →
    ∀ r : GoString, (canonTokens a b c d).length ≤ fuel →
    convertLoop fuel (digitsValue a b c d) r = some (r ++ concatStr (canonTokens a b c d)) := by
  induction fuel with
  | zero =>
    intro a b c d ha hb hc hd r hlen
    by_cases hpos : 0 < digitsValue a b c d
    · obtain ⟨t, a1, b1, c1, d1, -, -, -, -, htok, -⟩ := convert_step a b c d ha hb hc hd hpos r
      rw [htok] at hlen
      simp at hlen
    · obtain ⟨rfl, rfl, rfl, rfl⟩ := digitsValue_zero a b c d hpos
      simp [convertLoop, digitsValue, canonTokens, tokT_zero, tokH, tokX, tokI, placeTokens_zero,
        concatStr]
  | succ n ih =>
    intro a b c d ha hb hc hd r hlen
    by_cases hpos : 0 < digitsValue a b c d
    · obtain ⟨t, a1, b1, c1, d1, ha1, hb1, hc1, hd1, htok, hstep⟩ :=
        convert_step a b c d ha hb hc hd hpos r
      rw [htok] at hlen
      have hlen1 : (canonTokens a1 b1 c1 d1).length ≤ n := by
        simpa using hlen
      rw [convertLoop, if_pos hpos, hstep, ih a1 b1 c1 d1 ha1 hb1 hc1 hd1 _ hlen1, htok,
        concatStr_cons, List.append_assoc]
    · obtain ⟨rfl, rfl, rfl, rfl⟩ := digitsValue_zero a b c d hpos
      simp [convertLoop, digitsValue, canonTokens, tokT_zero, tokH, tokX, tokI, placeTokens_zero,
        concatStr]

theorem canonTokens_length_le (a b c d : Nat) (ha : a < 4) (hb : b < 10) (hc : c < 10)
    (hd : d < 10) : (canonTokens a b c d).length ≤ 15 := by
  have h1 : (tokT a).length ≤ 3 := by interval_cases a <;> simp [tokT]
  have h2 : ∀ (o f v n : Transformation) (k : Nat), k < 10 →
      (placeTokens o f v n k).length ≤ 4 := by
    intro o f v n k hk
    interval_cases k <;> simp [placeTokens]
  have hb2 := h2 ⟨lit "C", 100⟩ ⟨lit "CD", 400⟩ ⟨lit "D", 500⟩ ⟨lit "CM", 900⟩ b hb
  have hc2 := h2 ⟨lit "X", 10⟩ ⟨lit "XL", 40⟩ ⟨lit "L", 50⟩ ⟨lit "XC", 90⟩ c hc
  have hd2 := h2 ⟨lit "I", 1⟩ ⟨lit "IV", 4⟩ ⟨lit "V", 5⟩ ⟨lit "IX", 9⟩ d hd
  simp only [canonTokens, tokH, tokX, tokI, List.length_append]
  omega

theorem canonTokens_length_le_value (a b c d : Nat) (ha : a < 4) (hb : b < 10) (hc : c < 10)
    (hd : d < 10) : (canonTokens a b c d).length ≤ (digitsValue a b c d).toNat := by
  have h1 : (tokT a).length ≤ a := by interval_cases a <;> simp [tokT]
  have h2 : ∀ (o f v n : Transformation) (k : Nat), k < 10 →
      (placeTokens o f v n k).length ≤ k := by
    intro o f v n k hk
    interval_cases k <;> simp [placeTokens]
  have hb2 := h2 ⟨lit "C", 100⟩ ⟨lit "CD", 400⟩ ⟨lit "D", 500⟩ ⟨lit "CM", 900⟩ b hb
  have hc2 := h2 ⟨lit "X", 10⟩ ⟨lit "XL", 40⟩ ⟨lit "L", 50⟩ ⟨lit "XC", 90⟩ c hc
  have hd2 := h2 ⟨lit "I", 1⟩ ⟨lit "IV", 4⟩ ⟨lit "V", 5⟩ ⟨lit "IX", 9⟩ d hd
  simp only [canonTokens, tokH, tokX, tokI, List.length_append, digitsValue]
  omega

/-! ## The decoder on a list of table entries -/

theorem table_self : ∀ t ∈ romanToArabic, firstMatch t.str = some t := by decide

theorem table_pairs : ∀ t ∈ romanToArabic, ∀ t2 ∈ romanToArabic, t2.val ≤ t.val →
    firstMatch ((t.str ++ t2.str).take 2) = some t := by
  decide

theorem firstMatch_token (t : Transformation) (ts : List Transformation)
    (ht : t ∈ romanToArabic) (hts : ∀ t2 ∈ ts.head?, t2 ∈ romanToArabic ∧ t2.val ≤ t.val) :
    firstMatch (t.str ++ concatStr ts) = some t := by
  have hlen := (table_facts t ht).1
  cases ts with
  | nil =>
    simp only [concatStr, List.append_nil]
    exact table_self t ht
  | cons t2 ts2 =>
    obtain ⟨ht2, hle⟩ := hts t2 (by simp)
    have hlen2 := (table_facts t2 ht2).1
    rw [firstMatch_take2, concatStr_cons, ← List.append_assoc,
      List.take_append_of_le_length (by rw [List.length_append]; omega)]
    exact table_pairs t ht t2 ht2 hle

theorem parseLoop_tokens (s : GoString) (ts : List Transformation) :
    (∀ t ∈ ts, t ∈ romanToArabic) → List.Chain' (fun t1 t2 => t2.val ≤ t1.val) ts →
    ∀ (st : ParseState) (fuel : Nat), st.rest = concatStr ts → ts.length ≤ fuel →
    parseLoop s fuel st =
      some (scanResult (scanTokens st.prevDigit st.sameDigitInRow st.result ts)) := by
  induction ts with
  | nil =>
    intro _ _ st fuel hrest _
    have hnil : st.rest = [] := hrest
    cases fuel <;> simp [parseLoop, hnil, scanTokens, scanResult]
  | cons t ts ih =>
    intro hmem hchain st fuel hrest hfuel
    have ht : t ∈ romanToArabic := hmem t (List.mem_cons_self t ts)
    have hlen := (table_facts t ht).1
    have hrest1 : st.rest = t.str ++ concatStr ts := hrest
    have hne : st.rest ≠ [] := by
      rw [hrest1]
      intro h
      rw [(List.append_eq_nil.mp h).1] at hlen
      simp at hlen
    have hm : firstMatch st.rest = some t := by
      rw [hrest1]
      apply firstMatch_token t ts ht
      intro t2 ht2
      cases ts with
      | nil => simp at ht2
      | cons t3 ts3 =>
        simp at ht2
        subst ht2
        exact ⟨hmem _ (by simp), (List.chain'_cons.mp hchain).1⟩
    have hdrop : List.drop t.str.length st.rest = concatStr ts := by
      rw [hrest1, List.drop_left]
    cases fuel with
    | zero => simp at hfuel
    | succ n =>
      have hih := fun st1 h => ih (fun x hx => hmem x (List.mem_cons_of_mem t hx))
        (List.Chain'.tail hchain) st1 n h (by simpa using hfuel)
      rcases digitStep_cases st t with ⟨h1, h⟩ | ⟨h1, h2, h⟩ | ⟨h1, h2, h⟩ | ⟨h1, h⟩
      · rw [parseLoop_ret s n st hne hm h]
        simp [scanTokens, nextSame, h1, scanResult]
      · rw [parseLoop_ret s n st hne hm h]
        have h3 : ¬ st.prevDigit < t.val := by omega
        simp [scanTokens, nextSame, h1, h2, scanResult]
      · rw [parseLoop_next s n st hne hm h, hih _ hdrop]
        have h3 : ¬ t.val < t.val := by omega
        have h4 : ¬ 3 < st.sameDigitInRow + 1 := by omega
        simp [scanTokens, nextSame, h1, h3, h4]
      · rw [parseLoop_next s n st hne hm h, hih _ hdrop]
        have h3 : ¬ st.prevDigit < t.val := by omega
        have h4 : ¬ st.prevDigit = t.val := by omega
        simp [scanTokens, nextSame, h3, h4]

theorem scan_append (L1 L2 : List Transformation) : ∀ (p s r : Int),
    scanTokens p s r (L1 ++ L2) =
      match scanTokens p s r L1 with
      | Except.ok (p1, s1, r1) => scanTokens p1 s1 r1 L2
      | Except.error e => Except.error e := by
  induction L1 with
  | nil => intro p s r; rfl
  | cons t ts ih =>
    intro p s r
    simp only [List.cons_append, scanTokens]
    split_ifs
    · rfl
    · rfl
    · exact ih _ _ _

theorem scan_shift (L : List Transformation) : ∀ (p s r k : Int),
    scanTokens p s (r + k) L =
      match scanTokens p s r L with
      | Except.ok (p1, s1, r1) => Except.ok (p1, s1, r1 + k)
      | Except.error e => Except.error e := by
  induction L with
  | nil => intro p s r k; rfl
  | cons t ts ih =>
    intro p s r k
    simp only [scanTokens]
    split_ifs
    · rfl
    · rfl
    · rw [show r + k + t.val = r + t.val + k by ring]
      exact ih _ _ _ _

theorem scan_fresh (t : Transformation) (L : List Transformation) (p s r : Int)
    (h1 : t.val < p) (h2 : t.val < 3999) :
    scanTokens p s r (t :: L) =
      match scanTokens 3999 0 0 (t :: L) with
      | Except.ok (p1, s1, r1) => Except.ok (p1, s1, r1 + r)
      | Except.error e => Except.error e := by
  have e1 : scanTokens p s r (t :: L) = scanTokens t.val 1 (r + t.val) L := by
    have h3 : ¬ p < t.val := by omega
    have h4 : ¬ p = t.val := by omega
    simp [scanTokens, nextSame, h3, h4]
  have e2 : scanTokens 3999 0 0 (t :: L) = scanTokens t.val 1 (0 + t.val) L := by
    have h3 : ¬ (3999 : Int) < t.val := by omega
    have h4 : ¬ (3999 : Int) = t.val := by omega
    simp [scanTokens, nextSame, h3, h4]
  rw [e1, e2, ← scan_shift, show r + t.val = 0 + t.val + r by ring]

theorem scan_place (L : List Transformation) (p s r hi lo w : Int) (hp : hi < p)
    (hhi : hi < 3999) (hlo : lo ≤ p)
    (hL : (L = [] ∧ w = 0) ∨ ∃ t L1 p0 s0, L = t :: L1 ∧ t.val ≤ hi ∧
      scanTokens 3999 0 0 L = Except.ok (p0, s0, w) ∧ lo ≤ p0) :
    ∃ p1 s1, scanTokens p s r L = Except.ok (p1, s1, r + w) ∧ lo ≤ p1 := by
  rcases hL with ⟨rfl, rfl⟩ | ⟨t, L1, p0, s0, rfl, ht, hscan, hp0⟩
  · exact ⟨p, s, by simp [scanTokens], hlo⟩
  · refine ⟨p0, s0, ?_, hp0⟩
    rw [scan_fresh t L1 p s r (by omega) (by omega), hscan]
    simp only []
    rw [Int.add_comm]

theorem tokT_place (a : Nat) (ha : a < 4) :
    (tokT a = [] ∧ (1000 * a : Int) = 0) ∨ ∃ t L1 p0 s0, tokT a = t :: L1 ∧ t.val ≤ 1000 ∧
      scanTokens 3999 0 0 (tokT a) = Except.ok (p0, s0, 1000 * (a : Int)) ∧ 1000 ≤ p0 := by
  interval_cases a
  · left; exact ⟨rfl, rfl⟩
  all_goals right; exact ⟨_, _, _, _, rfl, by decide, rfl, by decide⟩

theorem tokH_place (b : Nat) (hb : b < 10) :
    (tokH b = [] ∧ (100 * b : Int) = 0) ∨ ∃ t L1 p0 s0, tokH b = t :: L1 ∧ t.val ≤ 900 ∧
      scanTokens 3999 0 0 (tokH b) = Except.ok (p0, s0, 100 * (b : Int)) ∧ 100 ≤ p0 := by
  interval_cases b
  · left; exact ⟨rfl, rfl⟩
  all_goals right; exact ⟨_, _, _, _, rfl, by decide, rfl, by decide⟩

theorem tokX_place (c : Nat) (hc : c < 10) :
    (tokX c = [] ∧ (10 * c : Int) = 0) ∨ ∃ t L1 p0 s0, tokX c = t :: L1 ∧ t.val ≤ 90 ∧
      scanTokens 3999 0 0 (tokX c) = Except.ok (p0, s0, 10 * (c : Int)) ∧ 10 ≤ p0 := by
  interval_cases c
  · left; exact ⟨rfl, rfl⟩
  all_goals right; exact ⟨_, _, _, _, rfl, by decide, rfl, by decide⟩

theorem tokI_place (d : Nat) (hd : d < 10) :
    (tokI d = [] ∧ (d : Int) = 0) ∨ ∃ t L1 p0 s0, tokI d = t :: L1 ∧ t.val ≤ 9 ∧
      scanTokens 3999 0 0 (tokI d) = Except.ok (p0, s0, (d : Int)) ∧ 1 ≤ p0 := by
  interval_cases d
  · left; exact ⟨rfl, rfl⟩
  all_goals right; exact ⟨_, _, _, _, rfl, by decide, rfl, by decide⟩

theorem scan_canonTokens (a b c d : Nat) (ha : a < 4) (hb : b < 10) (hc : c < 10)
    (hd : d < 10) :
    ∃ p s, scanTokens 3999 0 0 (canonTokens a b c d) = Except.ok (p, s, digitsValue a b c d) := by
  obtain ⟨p1, s1, h1, hp1⟩ := scan_place (tokT a) 3999 0 0 1000 1000 (1000 * a) (by decide)
    (by decide) (by decide) (tokT_place a ha)
  obtain ⟨p2, s2, h2, hp2⟩ := scan_place (tokH b) p1 s1 (0 + 1000 * a) 900 100 (100 * b)
    (by omega) (by decide) (by omega) (tokH_place b hb)
  obtain ⟨p3, s3, h3, hp3⟩ := scan_place (tokX c) p2 s2 (0 + 1000 * a + 100 * b) 90 10 (10 * c)
    (by omega) (by decide) (by omega) (tokX_place c hc)
  obtain ⟨p4, s4, h4, hp4⟩ := scan_place (tokI d) p3 s3 (0 + 1000 * a + 100 * b + 10 * c) 9 1 d
    (by omega) (by decide) (by omega) (tokI_place d hd)
  refine ⟨p4, s4, ?_⟩
  unfold canonTokens
  rw [scan_append, scan_append, scan_append, h1]
  simp only []
  rw [h2]
  simp only []
  rw [h3]
  simp only []
  rw [h4]
  simp [digitsValue]

theorem scan_ok_chain (L : List Transformation) : ∀ (p s r : Int) (x : Int × Int × Int),
    scanTokens p s r L = Except.ok x → List.Chain' (fun t1 t2 => t2.val ≤ t1.val) L := by
  induction L with
  | nil => intro _ _ _ _ _; exact List.chain'_nil
  | cons t ts ih =>
    intro p s r x h
    simp only [scanTokens] at h
    split_ifs at h with h1 h2
    rw [List.chain'_cons']
    refine ⟨?_, ih _ _ _ x h⟩
    intro t2 ht2
    cases ts with
    | nil => simp at ht2
    | cons t3 ts3 =>
      simp at ht2
      subst ht2
      simp only [scanTokens] at h
      split_ifs at h with h3 h4
      omega

theorem canonTokens_mem (a b c d : Nat) (ha : a < 4) (hb : b < 10) (hc : c < 10)
    (hd : d < 10) : ∀ t ∈ canonTokens a b c d, t ∈ romanToArabic := by
  have h1 : ∀ t ∈ tokT a, t ∈ romanToArabic := by interval_cases a <;> decide
  have h2 : ∀ t ∈ tokH b, t ∈ romanToArabic := by interval_cases b <;> decide
  have h3 : ∀ t ∈ tokX c, t ∈ romanToArabic := by interval_cases c <;> decide
  have h4 : ∀ t ∈ tokI d, t ∈ romanToArabic := by interval_cases d <;> decide
  intro t ht
  simp only [canonTokens, List.mem_append] at ht
  rcases ht with ((ht | ht) | ht) | ht
  · exact h1 t ht
  · exact h2 t ht
  · exact h3 t ht
  · exact h4 t ht

theorem concatStr_length (ts : List Transformation) (h : ∀ t ∈ ts, t ∈ romanToArabic) :
    ts.length ≤ (concatStr ts).length := by
  induction ts with
  | nil => simp
  | cons t ts ih =>
    have hlen := (table_facts t (h t (List.mem_cons_self t ts))).1
    have := ih (fun x hx => h x (List.mem_cons_of_mem t hx))
    simp only [concatStr_cons, List.length_append, List.length_cons]
    omega

/-- Decoding a chain of table entries with non-increasing values gives what
the checks of the loop give on the entries themselves. -/
theorem parseRoman_tokens (ts : List Transformation) (h : ∀ t ∈ ts, t ∈ romanToArabic)
    (hchain : List.Chain' (fun t1 t2 => t2.val ≤ t1.val) ts) :
    parseRoman (concatStr ts) = some (scanResult (scanTokens 3999 0 0 ts)) :=
  parseLoop_tokens (concatStr ts) ts h hchain (parseInit (concatStr ts)) _ rfl
    (concatStr_length ts h)

theorem parseRoman_canonTokens (a b c d : Nat) (ha : a < 4) (hb : b < 10) (hc : c < 10)
    (hd : d < 10) :
    parseRoman (concatStr (canonTokens a b c d)) = some (digitsValue a b c d, none) := by
  obtain ⟨p, s, hscan⟩ := scan_canonTokens a b c d ha hb hc hd
  rw [parseRoman_tokens _ (canonTokens_mem a b c d ha hb hc hd) (scan_ok_chain _ _ _ _ _ hscan),
    hscan]
  rfl

/-! ## Canonical numerals -/

theorem concatStr_append (L1 L2 : List Transformation) :
    concatStr (L1 ++ L2) = concatStr L1 ++ concatStr L2 := by
  induction L1 with
  | nil => rfl
  | cons t ts ih => simp only [List.cons_append, concatStr_cons, ih, List.append_assoc]

theorem canonicalDigits_tokens (a b c d : Nat) (ha : a < 4) (hb : b < 10) (hc : c < 10)
    (hd : d < 10) :
    thousandsTable.getD a [] ++ hundredsTable.getD b [] ++ tensTable.getD c [] ++
      unitsTable.getD d [] = concatStr (canonTokens a b c d) := by
  have e1 : thousandsTable.getD a [] = concatStr (tokT a) := by interval_cases a <;> rfl
  have e2 : hundredsTable.getD b [] = concatStr (tokH b) := by interval_cases b <;> rfl
  have e3 : tensTable.getD c [] = concatStr (tokX c) := by interval_cases c <;> rfl
  have e4 : unitsTable.getD d [] = concatStr (tokI d) := by interval_cases d <;> rfl
  rw [e1, e2, e3, e4, canonTokens, concatStr_append, concatStr_append, concatStr_append]

theorem canonicalNumeral_tokens (v : Int) (h1 : 0 ≤ v) (h2 : v ≤ 3999) :
    ∃ a b c d, a < 4 ∧ b < 10 ∧ c < 10 ∧ d < 10 ∧ digitsValue a b c d = v ∧
      canonicalNumeral v = concatStr (canonTokens a b c d) :=
  ⟨(v / 1000).toNat, ((v / 100) % 10).toNat, ((v / 10) % 10).toNat, (v % 10).toNat,
    by omega, by omega, by omega, by omega, by unfold digitsValue; omega,
    canonicalDigits_tokens _ _ _ _ (by omega) (by omega) (by omega) (by omega)⟩

theorem convertToRoman_digits (a b c d : Nat) (ha : a < 4) (hb : b < 10) (hc : c < 10)
    (hd : d < 10) (hpos : 0 < digitsValue a b c d) :
    convertToRoman (digitsValue a b c d) = some (concatStr (canonTokens a b c d), none) := by
  have hle : digitsValue a b c d ≤ 3999 := by unfold digitsValue; omega
  have hcond : ¬ (digitsValue a b c d ≤ 0 ∨ digitsValue a b c d > maxRomanNumber) := by
    unfold maxRomanNumber; omega
  rw [convertToRoman, if_neg hcond,
    convertLoop_tokens _ a b c d ha hb hc hd [] (canonTokens_length_le_value a b c d ha hb hc hd)]
  rfl

theorem concatStr_ne_nil (a b c d : Nat) (ha : a < 4) (hb : b < 10) (hc : c < 10)
    (hd : d < 10) (hpos : 0 < digitsValue a b c d) : concatStr (canonTokens a b c d) ≠ [] := by
  obtain ⟨t, a1, b1, c1, d1, -, -, -, -, htok, -⟩ := convert_step a b c d ha hb hc hd hpos []
  have hmem := canonTokens_mem a b c d ha hb hc hd t (by rw [htok]; simp)
  have hlen := (table_facts t hmem).1
  rw [htok, concatStr_cons]
  intro h
  rw [(List.append_eq_nil.mp h).1] at hlen
  simp at hlen

theorem chain_replicate (t : Transformation) (n : Nat) :
    List.Chain' (fun t1 t2 : Transformation => t2.val ≤ t1.val) (List.replicate n t) := by
  induction n with
  | zero => exact List.chain'_nil
  | succ k ih =>
    rw [List.replicate_succ, List.chain'_cons']
    refine ⟨?_, ih⟩
    intro y hy
    cases k with
    | zero => simp at hy
    | succ j =>
      simp [List.replicate_succ] at hy
      subst hy
      exact Int.le_refl _

theorem concatStr_replicate (t : Transformation) (n : Nat) :
    concatStr (List.replicate n t) = repeatStr n t.str := by
  induction n with
  | zero => rfl
  | succ k ih => rw [List.replicate_succ, concatStr_cons, ih, repeatStr]

theorem scan_replicate_small : ∀ t ∈ romanToArabic,
    scanTokens 3999 0 0 (List.replicate 1 t) = Except.ok (t.val, 1, 1 * t.val) ∧
    scanTokens 3999 0 0 (List.replicate 2 t) = Except.ok (t.val, 2, 2 * t.val) ∧
    scanTokens 3999 0 0 (List.replicate 3 t) = Except.ok (t.val, 3, 3 * t.val) ∧
    scanTokens 3999 0 0 (List.replicate 4 t) = Except.error (Err.tooManyEqualDigits t.val) := by
  intro t ht
  simp only [romanToArabic, List.mem_cons, List.mem_singleton, List.not_mem_nil, or_false] at ht
  rcases ht with rfl | rfl | rfl | rfl | rfl | rfl | rfl | rfl | rfl | rfl | rfl | rfl | rfl <;>
    exact ⟨rfl, rfl, rfl, rfl⟩

theorem parseRoman_repeat (t : Transformation) (ht : t ∈ romanToArabic) (n : Nat) :
    (1 ≤ n → n ≤ 3 → parseRoman (repeatStr n t.str) = some (n * t.val, none)) ∧
    (4 ≤ n → parseRoman (repeatStr n t.str) = some (0, some (Err.tooManyEqualDigits t.val))) := by
  have hmem : ∀ x ∈ List.replicate n t, x ∈ romanToArabic := by
    intro x hx
    rw [List.eq_of_mem_replicate hx]
    exact ht
  have hparse := parseRoman_tokens (List.replicate n t) hmem (chain_replicate t n)
  rw [concatStr_replicate] at hparse
  obtain ⟨h1, h2, h3, h4⟩ := scan_replicate_small t ht
  constructor
  · intro hn1 hn3
    rw [hparse]
    interval_cases n
    · rw [h1]; simp [scanResult]
    · rw [h2]; simp [scanResult]
    · rw [h3]; simp [scanResult]
  · intro hn4
    obtain ⟨m, rfl⟩ : ∃ m, n = 4 + m := ⟨n - 4, by omega⟩
    rw [hparse, List.replicate_add, scan_append, h4]
    rfl

theorem parseRoman_four (s : GoString) (h : HasFourInRow s) :
    ∃ e, parseRoman s = some (0, some e) :=
  four_error s s.length (parseInit s) h (Int.le_refl 0) (Nat.le_refl _)

/-! ## Properties of the codec and of the loop of `main` -/

/-- C1. Round trip: for every `v` with `1 ≤ v ≤ 3999`, `convertToRoman v` returns a string
`s` with a nil error, and `parseRoman s` returns exactly `v` with a nil error. -/
theorem roundtrip_convert_parse (v : Int) (h1 : 1 ≤ v) (h2 : v ≤ 3999) :
    ∃ s, convertToRoman v = some (s, none) ∧ parseRoman s = some (v, none) := by
  obtain ⟨a, b, c, d, ha, hb, hc, hd, hv, -⟩ := canonicalNumeral_tokens v (by omega) h2
  subst hv
  exact ⟨_, convertToRoman_digits a b c d ha hb hc hd (by omega),
    parseRoman_canonTokens a b c d ha hb hc hd⟩

/-- Witness of C1 at `v = 1994`. -/
theorem roundtrip_convert_parse_witness :
    (1 : Int) ≤ 1994 ∧ (1994 : Int) ≤ 3999 ∧
      ∃ s, convertToRoman 1994 = some (s, none) ∧ parseRoman s = some (1994, none) :=
  ⟨by decide, by decide, roundtrip_convert_parse 1994 (by decide) (by decide)⟩

/-- C2. For every `v` with `1 ≤ v ≤ 3999`, `convertToRoman v` is the concatenation
`T[v/1000] ++ H[(v/100)%10] ++ X[(v/10)%10] ++ I[v%10]` of the four place tables; in
particular 3999 gives `MMMCMXCIX`, 1 gives `I` and 4 gives `IV`. -/
theorem convertToRoman_canonical (v : Int) (h1 : 1 ≤ v) (h2 : v ≤ 3999) :
    convertToRoman v = some (canonicalNumeral v, none) ∧
      convertToRoman 3999 = some (lit "MMMCMXCIX", none) ∧
      convertToRoman 1 = some (lit "I", none) ∧
      convertToRoman 4 = some (lit "IV", none) := by
  refine ⟨?_, by decide, by decide, by decide⟩
  obtain ⟨a, b, c, d, ha, hb, hc, hd, hv, hcanon⟩ := canonicalNumeral_tokens v (by omega) h2
  rw [hcanon, ← hv]
  exact convertToRoman_digits a b c d ha hb hc hd (by omega)

/-- Witness of C2 at `v = 2024`, whose canonical numeral is `MMXXIV`. -/
theorem convertToRoman_canonical_witness :
    (1 : Int) ≤ 2024 ∧ (2024 : Int) ≤ 3999 ∧ canonicalNumeral 2024 = lit "MMXXIV" ∧
      convertToRoman 2024 = some (canonicalNumeral 2024, none) :=
  ⟨by decide, by decide, by decide, (convertToRoman_canonical 2024 (by decide) (by decide)).1⟩

/-- C3. `convertToRoman v` returns an error exactly when `v < 1` or `v > 3999`, and then the
string is empty; for `1 ≤ v ≤ 3999` it returns a non-empty string and a nil error.  It fails
for 0, for every negative `v` and for 4000. -/
theorem convertToRoman_error_iff (v : Int) :
    ((∃ s e, convertToRoman v = some (s, some e)) ↔ (v < 1 ∨ 3999 < v)) ∧
      ((v < 1 ∨ 3999 < v) → convertToRoman v = some ([], some (Err.beyondRomanBoundaries v))) ∧
      ((1 ≤ v ∧ v ≤ 3999) → ∃ s, s ≠ [] ∧ convertToRoman v = some (s, none)) ∧
      convertToRoman 0 = some ([], some (Err.beyondRomanBoundaries 0)) ∧
      (v < 0 → convertToRoman v = some ([], some (Err.beyondRomanBoundaries v))) ∧
      convertToRoman 4000 = some ([], some (Err.beyondRomanBoundaries 4000)) := by
  have hout : (v < 1 ∨ 3999 < v) →
      convertToRoman v = some ([], some (Err.beyondRomanBoundaries v)) := by
    intro h
    have hcond : v ≤ 0 ∨ v > maxRomanNumber := by unfold maxRomanNumber; omega
    rw [convertToRoman, if_pos hcond]
  have hin : (1 ≤ v ∧ v ≤ 3999) → ∃ s, s ≠ [] ∧ convertToRoman v = some (s, none) := by
    intro ⟨h1, h2⟩
    obtain ⟨a, b, c, d, ha, hb, hc, hd, hv, -⟩ := canonicalNumeral_tokens v (by omega) h2
    subst hv
    exact ⟨_, concatStr_ne_nil a b c d ha hb hc hd (by omega),
      convertToRoman_digits a b c d ha hb hc hd (by omega)⟩
  refine ⟨⟨?_, fun h => ⟨_, _, hout h⟩⟩, hout, hin, by decide, fun h => hout (by omega),
    by decide⟩
  intro ⟨s, e, hs⟩
  by_contra hrange
  obtain ⟨s1, -, hs1⟩ := hin (by omega)
  rw [hs1] at hs
  injection hs with hs
  injection hs with _ hs
  exact Option.noConfusion hs

/-- Witness of C3 at `v = 4000` (error) and `v = 1` (no error). -/
theorem convertToRoman_error_iff_witness :
    convertToRoman 4000 = some ([], some (Err.beyondRomanBoundaries 4000)) ∧
      ∃ s, s ≠ [] ∧ convertToRoman 1 = some (s, none) :=
  ⟨(convertToRoman_error_iff 4000).2.1 (by decide),
    (convertToRoman_error_iff 1).2.2.1 (by decide)⟩

/-- C4, as stated, fails: `parseRoman ""` does not return an error. -/
theorem parseRoman_empty_not_error :
    ¬ ∃ v e, parseRoman (lit "") = some (v, some e) := by
  intro ⟨v, e, h⟩
  have h0 : parseRoman (lit "") = some (0, none) := rfl
  rw [h0] at h
  injection h with h
  injection h with _ h
  exact Option.noConfusion h

/-- C4, amended. `parseRoman ""` returns the value 0 and a nil error: the loop condition
`i < len(s)` fails at once, so no table entry is ever tried. -/
theorem parseRoman_empty_ok :
    parseRoman (lit "") = some (0, none) ∧ parseLoop (lit "") 0 (parseInit (lit "")) = some (0, none) :=
  ⟨rfl, rfl⟩

/-- C5 at the failing inputs. With tokens `1 + 100` the second operand 100 is outside
`[1, 10]`, yet the line is processed and `101` is printed; with `5 * 0` it prints `0`.
The first operand is checked: `100 + 1` panics. -/
theorem mainLoopBody_second_operand_unchecked :
    mainLoopBody [lit "1", lit "+", lit "100"] = some (Outcome.println (lit "101")) ∧
      mainLoopBody [lit "5", lit "*", lit "0"] = some (Outcome.println (lit "0")) ∧
      mainLoopBody [lit "100", lit "+", lit "1"] =
        some (Outcome.panic (Err.operand1Boundaries 100)) := by
  decide

/-- C6. Every string that contains the same byte four times in a row, anywhere, is
rejected by `parseRoman` with an error. -/
theorem parseRoman_four_in_row (s : GoString) (h : HasFourInRow s) :
    ∃ e, parseRoman s = some (0, some e) :=
  parseRoman_four s h

/-- Witness of C6 at `MIIIIX`. -/
theorem parseRoman_four_in_row_witness :
    HasFourInRow (lit "MIIIIX") ∧ ∃ e, parseRoman (lit "MIIIIX") = some (0, some e) :=
  ⟨⟨lit "M", 73, lit "X", rfl⟩, parseRoman_four_in_row (lit "MIIIIX") ⟨lit "M", 73, lit "X", rfl⟩⟩

/-- C7. For every table entry `t` and every `n`, `parseRoman` of `n` concatenated copies of
`t.str` returns `n * t.val` when `1 ≤ n ≤ 3` and fails with the repetition error for `t.val`
when `n ≥ 4`; `IIII` fails with the repetition error. -/
theorem parseRoman_repetition_limit (t : Transformation) (ht : t ∈ romanToArabic) (n : Nat) :
    (1 ≤ n → n ≤ 3 → parseRoman (repeatStr n t.str) = some (n * t.val, none)) ∧
      (4 ≤ n →
        parseRoman (repeatStr n t.str) = some (0, some (Err.tooManyEqualDigits t.val))) ∧
      parseRoman (lit "IIII") = some (0, some (Err.tooManyEqualDigits 1)) :=
  ⟨(parseRoman_repeat t ht n).1, (parseRoman_repeat t ht n).2, by decide⟩

/-- Witness of C7 at the entry `CM` with five copies. -/
theorem parseRoman_repetition_limit_witness :
    (⟨lit "CM", 900⟩ : Transformation) ∈ romanToArabic ∧
      parseRoman (repeatStr 5 (lit "CM")) = some (0, some (Err.tooManyEqualDigits 900)) :=
  ⟨by decide, (parseRoman_repetition_limit ⟨lit "CM", 900⟩ (by decide) 5).2.1 (by decide)⟩

/-- C8. If the scan of `parseRoman s` reaches, without an earlier failure, a state whose
first matching table entry has a value above `prevDigit`, `parseRoman s` fails with the
ordering error for these two values.  After a pass that matched an entry, `prevDigit` is the
value of that entry.  Every table value is below the initial `prevDigit`, so the first digit
cannot trigger the error.  `IC` fails with the ordering error. -/
theorem parseRoman_ordering_rule (s : GoString) (st : ParseState) (t : Transformation)
    (hreach : Reaches s st) (hmatch : firstMatch st.rest = some t)
    (hgt : st.prevDigit < t.val) :
    parseRoman s = some (0, some (Err.wrongDigitPosition st.prevDigit t.val)) ∧
      (∀ st0 st1 t0, firstMatch st0.rest = some t0 →
        parseInner st0 romanToArabic = Flow.next st1 → st1.prevDigit = t0.val) ∧
      (∀ u ∈ romanToArabic, u.val < (parseInit s).prevDigit) ∧
      parseRoman (lit "IC") = some (0, some (Err.wrongDigitPosition 1 100)) := by
  refine ⟨?_, fun st0 st1 t0 hm0 hnext => ?_, fun u hu => ?_, by decide⟩
  rotate_left
  · rw [parseInner_firstMatch, hm0] at hnext
    obtain ⟨_, -, -, hprev, -⟩ := next_rest hm0 hnext
    exact hprev
  · have := (table_facts u hu).2.2.2
    show u.val < 3999
    omega
  have hne : st.rest ≠ [] := by
    intro h
    rw [h, firstMatch_nil] at hmatch
    exact Option.noConfusion hmatch
  rw [← reaches_parseLoop hreach (st.rest.length + 1) (by omega)]
  rcases digitStep_cases st t with ⟨-, h⟩ | ⟨h1, -, -⟩ | ⟨h1, -, -⟩ | ⟨h1, -⟩
  · exact parseLoop_ret s _ st hne hmatch h
  · omega
  · omega
  · omega

/-- Witness of C8 at `IC`: after `I` the scan is at `C` with previous digit 1. -/
theorem parseRoman_ordering_rule_witness :
    Reaches (lit "IC") ⟨lit "C", 1, 1, 1⟩ ∧
      firstMatch (lit "C") = some ⟨lit "C", 100⟩ ∧
      parseRoman (lit "IC") = some (0, some (Err.wrongDigitPosition 1 100)) :=
  ⟨Reaches.step Reaches.init (by decide) (by decide), by decide,
    (parseRoman_ordering_rule (lit "IC") ⟨lit "C", 1, 1, 1⟩ ⟨lit "C", 100⟩
      (Reaches.step Reaches.init (by decide) (by decide)) (by decide) (by decide)).1⟩

/-- C9. Every string with a byte other than `I V X L C D M` is rejected with an error; when
its first byte is such a byte, the error is `unknownDigits s`, raised in the first pass of
the loop. -/
theorem parseRoman_malformed (s : GoString) (h : ∃ b ∈ s, isRomanByte b = false) :
    (∃ e, parseRoman s = some (0, some e)) ∧
      (∀ b tl, s = b :: tl → isRomanByte b = false →
        parseLoop s 1 (parseInit s) = some (0, some (Err.unknownDigits s)) ∧
        parseRoman s = some (0, some (Err.unknownDigits s))) := by
  refine ⟨parseLoop_error_of_mem s s.length (parseInit s) (Nat.le_refl _) h, ?_⟩
  intro b tl hs hbad
  have hne : (parseInit s).rest ≠ [] := by rw [hs]; exact List.cons_ne_nil b tl
  have hm : firstMatch (parseInit s).rest = none := by
    rw [hs]; exact firstMatch_bad_head b tl hbad
  refine ⟨parseLoop_none s 0 (parseInit s) hne hm, ?_⟩
  have hlen : s.length = tl.length + 1 := by rw [hs]; rfl
  rw [parseRoman, hlen]
  exact parseLoop_none s tl.length (parseInit s) hne hm

/-- Witness of C9 at the lower-case start `xII`. -/
theorem parseRoman_malformed_witness :
    (∃ b ∈ lit "xII", isRomanByte b = false) ∧
      parseRoman (lit "xII") = some (0, some (Err.unknownDigits (lit "xII"))) :=
  ⟨⟨120, by decide, by decide⟩,
    ((parseRoman_malformed (lit "xII") ⟨120, by decide, by decide⟩).2 120 (lit "II") rfl
      (by decide)).2⟩

/-- C10. For every `v` with `1 ≤ v ≤ 3999` the string returned by `convertToRoman v` does
not contain four equal bytes in a row. -/
theorem convertToRoman_no_four_in_row (v : Int) (h1 : 1 ≤ v) (h2 : v ≤ 3999) :
    ∃ s, convertToRoman v = some (s, none) ∧ ¬ HasFourInRow s := by
  obtain ⟨a, b, c, d, ha, hb, hc, hd, hv, -⟩ := canonicalNumeral_tokens v (by omega) h2
  subst hv
  refine ⟨_, convertToRoman_digits a b c d ha hb hc hd (by omega), ?_⟩
  intro hfour
  obtain ⟨e, he⟩ := parseRoman_four _ hfour
  have hok := parseRoman_canonTokens a b c d ha hb hc hd
  rw [he] at hok
  injection hok with hok
  injection hok with _ hok
  exact Option.noConfusion hok

/-- Witness of C10 at `v = 3888`, the longest numeral. -/
theorem convertToRoman_no_four_in_row_witness :
    (1 : Int) ≤ 3888 ∧ (3888 : Int) ≤ 3999 ∧
      ∃ s, convertToRoman 3888 = some (s, none) ∧ ¬ HasFourInRow s :=
  ⟨by decide, by decide, convertToRoman_no_four_in_row 3888 (by decide) (by decide)⟩

/-! ## The encoder trace, valid digit lists and the loop of `main`: lemmas -/

theorem convertInner_pickEntry (v : Int) (r : GoString) (l : List Transformation) :
    convertInner v r l =
      match convertPick v l with
      | some t => (r ++ t.str, v - t.val)
      | none => (r, v) := by
  induction l with
  | nil => rfl
  | cons t ts ih =>
    by_cases h : t.val ≤ v
    · simp [convertInner, convertPick, h]
    · simp [convertInner, convertPick, h, ih]

/-- The loop of `convertToRoman` returns the symbols of the recorded entries. -/
theorem convertLoop_trace (fuel : Nat) : ∀ (v : Int) (r : GoString),
    convertLoop fuel v r = (convertTrace fuel v).map (fun ts => r ++ concatStr ts) := by
  induction fuel with
  | zero =>
    intro v r
    by_cases h : v > 0 <;> simp [convertLoop, convertTrace, h, concatStr]
  | succ n ih =>
    intro v r
    by_cases h : v > 0
    · rw [convertLoop, convertTrace, if_pos h, if_pos h, convertInner_pickEntry]
      cases hp : convertPick v romanToArabic with
      | none => simp only []; exact ih v r
      | some t =>
        simp only []
        rw [ih, Option.map_map]
        congr 1
        funext ts
        simp [concatStr_cons]
    · simp [convertLoop, convertTrace, h, concatStr]

theorem convertPick_mem {v : Int} {l : List Transformation} {t : Transformation}
    (h : convertPick v l = some t) : t ∈ l ∧ t.val ≤ v := by
  induction l with
  | nil => exact Option.noConfusion h
  | cons u us ih =>
    by_cases hu : u.val ≤ v
    · simp only [convertPick, if_pos hu] at h
      injection h with h
      subst h
      exact ⟨List.mem_cons_self _ _, hu⟩
    · simp only [convertPick, if_neg hu] at h
      exact ⟨List.mem_cons_of_mem _ (ih h).1, (ih h).2⟩

theorem convertPick_none {v : Int} {l : List Transformation}
    (h : convertPick v l = none) : ∀ t ∈ l, ¬ t.val ≤ v := by
  induction l with
  | nil => intro t ht; simp at ht
  | cons u us ih =>
    by_cases hu : u.val ≤ v
    · simp only [convertPick, if_pos hu] at h
      exact Option.noConfusion h
    · simp only [convertPick, if_neg hu] at h
      intro t ht
      rcases List.mem_cons.mp ht with rfl | ht
      · exact hu
      · exact ih h t ht

/-- Every pass of the outer loop with a positive remaining value finds an
entry, of positive value not above the remaining value. -/
theorem convertPick_pos (v : Int) (h : 0 < v) :
    ∃ t, convertPick v romanToArabic = some t ∧ t ∈ romanToArabic ∧ 0 < t.val ∧ t.val ≤ v := by
  cases hp : convertPick v romanToArabic with
  | some t =>
    obtain ⟨hm, hle⟩ := convertPick_mem hp
    exact ⟨t, rfl, hm, by have := (table_facts t hm).2.2.1; omega, hle⟩
  | none =>
    have h1 := convertPick_none hp ⟨lit "I", 1⟩ (by decide)
    have h2 : (1 : Int) ≤ v := by omega
    exact absurd h2 h1

theorem table_str_inj : ∀ t ∈ romanToArabic, ∀ u ∈ romanToArabic, t.str = u.str → t = u := by
  decide

theorem convertTrace_tokens (fuel : Nat) : ∀ (a b c d : Nat), a < 4 → b < 10 → c < 10 → d < 10 →
    (canonTokens a b c d).length ≤ fuel →
    convertTrace fuel (digitsValue a b c d) = some (canonTokens a b c d) := by
  induction fuel with
  | zero =>
    intro a b c d ha hb hc hd hlen
    by_cases hpos : 0 < digitsValue a b c d
    · obtain ⟨t, a1, b1, c1, d1, -, -, -, -, htok, -⟩ := convert_step a b c d ha hb hc hd hpos []
      rw [htok] at hlen
      simp at hlen
    · obtain ⟨rfl, rfl, rfl, rfl⟩ := digitsValue_zero a b c d hpos
      rfl
  | succ n ih =>
    intro a b c d ha hb hc hd hlen
    by_cases hpos : 0 < digitsValue a b c d
    · obtain ⟨t, a1, b1, c1, d1, ha1, hb1, hc1, hd1, htok, hstep⟩ :=
        convert_step a b c d ha hb hc hd hpos []
      obtain ⟨u, hu, humem, -, -⟩ := convertPick_pos _ hpos
      rw [convertInner_pickEntry, hu] at hstep
      simp only [List.nil_append, Prod.mk.injEq] at hstep
      have htmem := canonTokens_mem a b c d ha hb hc hd t (by rw [htok]; simp)
      have hut : u = t := table_str_inj u humem t htmem hstep.1
      subst hut
      rw [htok] at hlen
      have hlen1 : (canonTokens a1 b1 c1 d1).length ≤ n := by simpa using hlen
      rw [convertTrace, if_pos hpos, hu]
      simp only []
      rw [hstep.2, ih a1 b1 c1 d1 ha1 hb1 hc1 hd1 hlen1, htok]
      rfl
    · obtain ⟨rfl, rfl, rfl, rfl⟩ := digitsValue_zero a b c d hpos
      rfl

theorem convertTrace_short (fuel : Nat) : ∀ (v : Int) (ts : List Transformation),
    convertTrace fuel v = some ts → ts.length ≤ fuel := by
  induction fuel with
  | zero =>
    intro v ts h
    by_cases hv : v > 0
    · simp [convertTrace, hv] at h
    · simp [convertTrace, hv] at h
      subst h
      exact Nat.zero_le _
  | succ n ih =>
    intro v ts h
    by_cases hv : v > 0
    · obtain ⟨t, ht, -, hpos, -⟩ := convertPick_pos v hv
      rw [convertTrace, if_pos hv, ht] at h
      simp only [Option.map_eq_some'] at h
      obtain ⟨ts1, h1, rfl⟩ := h
      have := ih _ _ h1
      show ts1.length + 1 ≤ n + 1
      omega
    · simp [convertTrace, hv] at h
      subst h
      exact Nat.zero_le _

theorem fourEqual_cons {α : Type} (x : α) (l : List α) :
    FourEqual (x :: l) ↔ (∃ b, l = x :: x :: x :: b) ∨ FourEqual l := by
  constructor
  · rintro ⟨a, y, b, h⟩
    cases a with
    | nil =>
      simp only [List.nil_append, List.cons_append, List.cons.injEq] at h
      obtain ⟨rfl, h⟩ := h
      exact Or.inl ⟨b, h⟩
    | cons z a1 =>
      simp only [List.cons_append, List.cons.injEq] at h
      exact Or.inr ⟨a1, y, b, by simpa using h.2⟩
  · rintro (⟨b, rfl⟩ | ⟨a, y, b, rfl⟩)
    · exact ⟨[], x, b, rfl⟩
    · exact ⟨x :: a, y, b, rfl⟩

theorem not_fourEqual_short {α : Type} (l : List α) (h : l.length ≤ 3) : ¬ FourEqual l := by
  rintro ⟨a, x, b, rfl⟩
  simp at h
  omega

theorem fourEqual_replicate_ne {α : Type} (x y : α) (hxy : x ≠ y) (l : List α) (k : Nat)
    (hk : k ≤ 3) : FourEqual (List.replicate k x ++ y :: l) ↔ FourEqual (y :: l) := by
  induction k with
  | zero => rfl
  | succ n ih =>
    rw [List.replicate_succ, List.cons_append, fourEqual_cons, ih (by omega)]
    constructor
    · rintro (⟨b, hb⟩ | h)
      · exfalso
        have hn : n ≤ 2 := by omega
        interval_cases n <;> simp [List.replicate] at hb
        · exact hxy hb.1.symm
        · exact hxy hb.1.symm
        · exact hxy hb.1.symm
      · exact h
    · exact Or.inr

theorem scan_sum (ts : List Transformation) : ∀ (p s r p1 s1 r1 : Int),
    scanTokens p s r ts = Except.ok (p1, s1, r1) → r1 = r + digitSum ts := by
  induction ts with
  | nil =>
    intro p s r p1 s1 r1 h
    simp only [scanTokens, Except.ok.injEq, Prod.mk.injEq] at h
    simp [digitSum, h.2.2]
  | cons t ts ih =>
    intro p s r p1 s1 r1 h
    simp only [scanTokens] at h
    split_ifs at h
    rw [ih _ _ _ _ _ _ h]
    simp only [digitSum, List.map_cons, List.sum_cons]
    ring

/-- Success of the checks from a state that stands for `k` copies of the
value `p` just scanned. -/
theorem scan_ok_iff (ts : List Transformation) : ∀ (p : Int) (k : Nat) (r : Int),
    1 ≤ k → k ≤ 3 →
    ((∃ x, scanTokens p k r ts = Except.ok x) ↔
      List.Chain (fun a b : Int => b ≤ a) p (ts.map (fun t => t.val)) ∧
        ¬ FourEqual (List.replicate k p ++ ts.map (fun t => t.val))) := by
  induction ts with
  | nil =>
    intro p k r h1 h3
    simp only [scanTokens, List.map_nil, List.append_nil]
    exact ⟨fun _ => ⟨List.Chain.nil, not_fourEqual_short _ (by simpa using h3)⟩,
      fun _ => ⟨_, rfl⟩⟩
  | cons t ts ih =>
    intro p k r h1 h3
    simp only [scanTokens, List.map_cons, List.chain_cons]
    by_cases hlt : p < t.val
    · rw [if_pos hlt]
      constructor
      · rintro ⟨x, hx⟩; exact Except.noConfusion hx
      · rintro ⟨⟨hle, -⟩, -⟩; omega
    · rw [if_neg hlt]
      by_cases heq : p = t.val
      · have hsame : nextSame p k t.val = ((k + 1 : Nat) : Int) := by
          simp [nextSame, heq]
        rw [hsame]
        by_cases hk : k = 3
        · subst hk
          rw [if_pos (by norm_num)]
          constructor
          · rintro ⟨x, hx⟩; exact Except.noConfusion hx
          · rintro ⟨-, hfour⟩
            exact absurd ⟨[], p, ts.map (fun t => t.val), by simp [heq, List.replicate]⟩ hfour
        · have hk2 : k ≤ 2 := by omega
          rw [if_neg (by push_cast; omega), ih t.val (k + 1) _ (by omega) (by omega)]
          have hlist : List.replicate k p ++ t.val :: ts.map (fun t => t.val) =
              List.replicate (k + 1) t.val ++ ts.map (fun t => t.val) := by
            rw [List.replicate_succ', heq, List.append_assoc]; rfl
          rw [hlist]
          constructor
          · rintro ⟨hc, hf⟩; exact ⟨⟨by omega, hc⟩, hf⟩
          · rintro ⟨⟨-, hc⟩, hf⟩; exact ⟨hc, hf⟩
      · have hsame : nextSame p k t.val = ((1 : Nat) : Int) := by
          simp [nextSame, heq]
        rw [hsame, if_neg (by norm_num), ih t.val 1 _ (by omega) (by omega),
          fourEqual_replicate_ne p t.val heq _ k h3]
        constructor
        · rintro ⟨hc, hf⟩; exact ⟨⟨by omega, hc⟩, by simpa [List.replicate] using hf⟩
        · rintro ⟨⟨-, hc⟩, hf⟩; exact ⟨hc, by simpa [List.replicate] using hf⟩

theorem scan_first (t : Transformation) (ht : t ∈ romanToArabic) (ts : List Transformation)
    (r : Int) :
    scanTokens 3999 0 r (t :: ts) = scanTokens t.val ((1 : Nat) : Int) (r + t.val) ts := by
  have hv := (table_facts t ht).2.2.2
  have h1 : ¬ (3999 : Int) < t.val := by omega
  have h2 : ¬ (3999 : Int) = t.val := by omega
  simp [scanTokens, nextSame, h1, h2]

/-- From the initial state the checks succeed exactly on the valid lists. -/
theorem scan_init_ok_iff (ts : List Transformation) (h : ∀ t ∈ ts, t ∈ romanToArabic) :
    (∃ x, scanTokens 3999 0 0 ts = Except.ok x) ↔ ValidDigits ts := by
  cases ts with
  | nil =>
    simp only [scanTokens, ValidDigits, List.map_nil]
    exact ⟨fun _ => ⟨h, List.chain'_nil, not_fourEqual_short _ (by simp)⟩, fun _ => ⟨_, rfl⟩⟩
  | cons t ts =>
    have ht := h t (List.mem_cons_self _ _)
    rw [scan_first t ht, scan_ok_iff ts t.val 1 _ (by omega) (by omega)]
    unfold ValidDigits
    have hchain : List.Chain' (fun t1 t2 : Transformation => t2.val ≤ t1.val) (t :: ts) ↔
        List.Chain (fun a b : Int => b ≤ a) t.val (ts.map (fun t => t.val)) := by
      rw [List.Chain', List.chain_map]
    rw [hchain]
    constructor
    · rintro ⟨hc, hf⟩; exact ⟨h, hc, by simpa [List.replicate] using hf⟩
    · rintro ⟨-, hc, hf⟩; exact ⟨hc, by simpa [List.replicate] using hf⟩

theorem digitStep_next {st st1 : ParseState} {t : Transformation}
    (hs : digitStep st t = Flow.next st1) :
    ¬ st.prevDigit < t.val ∧ ¬ 3 < nextSame st.prevDigit st.sameDigitInRow t.val ∧
      st1.prevDigit = t.val ∧
      st1.sameDigitInRow = nextSame st.prevDigit st.sameDigitInRow t.val ∧
      st1.result = st.result + t.val := by
  rcases digitStep_cases st t with ⟨-, h⟩ | ⟨-, -, h⟩ | ⟨h1, h2, h⟩ | ⟨h1, h⟩
  · rw [h] at hs; exact Flow.noConfusion hs
  · rw [h] at hs; exact Flow.noConfusion hs
  · rw [h] at hs
    injection hs with hs
    subst hs
    have e : nextSame st.prevDigit st.sameDigitInRow t.val = st.sameDigitInRow + 1 := by
      simp [nextSame, h1]
    rw [e]
    exact ⟨by omega, by omega, rfl, rfl, rfl⟩
  · rw [h] at hs
    injection hs with hs
    subst hs
    have e : nextSame st.prevDigit st.sameDigitInRow t.val = 1 := by
      have : ¬ st.prevDigit = t.val := by omega
      simp [nextSame, this]
    rw [e]
    exact ⟨by omega, by omega, rfl, rfl, rfl⟩

/-- A successful scan reads the remainder as a list of table entries on which
the checks succeed with the returned value. -/
theorem parseLoop_extract (s : GoString) (fuel : Nat) : ∀ (st : ParseState) (v : Int),
    st.rest.length ≤ fuel → parseLoop s fuel st = some (v, none) →
    ∃ ts p1 s1, (∀ t ∈ ts, t ∈ romanToArabic) ∧ st.rest = concatStr ts ∧
      scanTokens st.prevDigit st.sameDigitInRow st.result ts = Except.ok (p1, s1, v) := by
  induction fuel with
  | zero =>
    intro st v hlen h
    have hnil : st.rest = [] := List.length_eq_zero.mp (by omega)
    simp [parseLoop, hnil] at h
    exact ⟨[], st.prevDigit, st.sameDigitInRow, by simp, hnil, by simp [scanTokens, h]⟩
  | succ n ih =>
    intro st v hlen h
    by_cases hnil : st.rest = []
    · simp [parseLoop, hnil] at h
      exact ⟨[], st.prevDigit, st.sameDigitInRow, by simp, hnil, by simp [scanTokens, h]⟩
    · cases hm : firstMatch st.rest with
      | none =>
        rw [parseLoop_none s n st hnil hm] at h
        simp at h
      | some t =>
        obtain ⟨hmem, -⟩ := firstMatch_some hm
        cases hs : digitStep st t with
        | notFound => exact absurd hs (digitStep_ne_notFound st t)
        | ret v1 e =>
          obtain ⟨rfl, err, rfl⟩ := digitStep_ret hs
          rw [parseLoop_ret s n st hnil hm hs] at h
          simp at h
        | next st1 =>
          obtain ⟨tl, htl, hrest, -, -, -, hlt⟩ := next_rest hm hs
          obtain ⟨h3, h4, hp, hsame, hres⟩ := digitStep_next hs
          rw [parseLoop_next s n st hnil hm hs] at h
          obtain ⟨ts, p1, s1, hts, hcat, hscan⟩ := ih st1 v (by rw [hrest]; omega) h
          refine ⟨t :: ts, p1, s1, ?_, ?_, ?_⟩
          · intro x hx
            rcases List.mem_cons.mp hx with rfl | hx
            · exact hmem
            · exact hts x hx
          · rw [concatStr_cons, ← hcat, htl, hrest]
          · rw [hp, hsame, hres] at hscan
            simp only [scanTokens, if_neg h3, if_neg h4]
            exact hscan

/-- A string has at most one reading as a list of table entries with
non-increasing values: the one the first-match scan finds. -/
theorem concatStr_unique (ts1 : List Transformation) : ∀ ts2 : List Transformation,
    (∀ t ∈ ts1, t ∈ romanToArabic) → (∀ t ∈ ts2, t ∈ romanToArabic) →
    List.Chain' (fun t1 t2 : Transformation => t2.val ≤ t1.val) ts1 →
    List.Chain' (fun t1 t2 : Transformation => t2.val ≤ t1.val) ts2 →
    concatStr ts1 = concatStr ts2 → ts1 = ts2 := by
  induction ts1 with
  | nil =>
    intro ts2 _ h2 _ _ hcat
    cases ts2 with
    | nil => rfl
    | cons u us =>
      have hlen := (table_facts u (h2 u (List.mem_cons_self _ _))).1
      rw [concatStr_cons] at hcat
      have hl := congrArg List.length hcat
      rw [List.length_append] at hl
      simp only [concatStr, List.length_nil] at hl
      omega
  | cons t ts ih =>
    intro ts2 h1 h2 hc1 hc2 hcat
    have ht := h1 t (List.mem_cons_self _ _)
    have hhead : ∀ (x : Transformation) (xs : List Transformation),
        (∀ y ∈ x :: xs, y ∈ romanToArabic) →
        List.Chain' (fun t1 t2 : Transformation => t2.val ≤ t1.val) (x :: xs) →
        firstMatch (concatStr (x :: xs)) = some x := by
      intro x xs hx hc
      rw [concatStr_cons]
      apply firstMatch_token x xs (hx x (List.mem_cons_self _ _))
      intro y hy
      exact ⟨hx y (List.mem_cons_of_mem _ (List.mem_of_mem_head? hy)),
        (List.chain'_cons'.mp hc).1 y hy⟩
    cases ts2 with
    | nil =>
      have hlen := (table_facts t ht).1
      rw [concatStr_cons] at hcat
      have hl := congrArg List.length hcat
      rw [List.length_append] at hl
      simp only [concatStr, List.length_nil] at hl
      omega
    | cons u us =>
      have e1 := hhead t ts h1 hc1
      have e2 := hhead u us h2 hc2
      rw [hcat, e2] at e1
      injection e1 with e1
      subst e1
      rw [concatStr_cons, concatStr_cons] at hcat
      have htail := ih us (fun x hx => h1 x (List.mem_cons_of_mem _ hx))
        (fun x hx => h2 x (List.mem_cons_of_mem _ hx)) (List.Chain'.tail hc1)
        (List.Chain'.tail hc2) (List.append_cancel_left hcat)
      rw [htail]

theorem valuesBelow_cases (p : Int) :
    (1000 < p ∧ valuesBelow p = 3109) ∨
    (900 < p ∧ p ≤ 1000 ∧ valuesBelow p = 2109) ∨
    (500 < p ∧ p ≤ 900 ∧ valuesBelow p = 1209) ∨
    (400 < p ∧ p ≤ 500 ∧ valuesBelow p = 709) ∨
    (100 < p ∧ p ≤ 400 ∧ valuesBelow p = 309) ∨
    (90 < p ∧ p ≤ 100 ∧ valuesBelow p = 209) ∨
    (50 < p ∧ p ≤ 90 ∧ valuesBelow p = 119) ∨
    (40 < p ∧ p ≤ 50 ∧ valuesBelow p = 69) ∨
    (10 < p ∧ p ≤ 40 ∧ valuesBelow p = 29) ∨
    (9 < p ∧ p ≤ 10 ∧ valuesBelow p = 19) ∨
    (5 < p ∧ p ≤ 9 ∧ valuesBelow p = 10) ∨
    (4 < p ∧ p ≤ 5 ∧ valuesBelow p = 5) ∨
    (1 < p ∧ p ≤ 4 ∧ valuesBelow p = 1) ∨
    (p ≤ 1 ∧ valuesBelow p = 0) := by
  by_cases h0 : (1000 : Int) < p
  · left; exact ⟨h0, by rw [valuesBelow, if_pos h0]⟩
  by_cases h1 : (900 : Int) < p
  · right; left; exact ⟨h1, by omega, by rw [valuesBelow, if_neg h0, if_pos h1]⟩
  by_cases h2 : (500 : Int) < p
  · right; right; left; exact ⟨h2, by omega, by rw [valuesBelow, if_neg h0, if_neg h1, if_pos h2]⟩
  by_cases h3 : (400 : Int) < p
  · right; right; right; left; exact ⟨h3, by omega, by rw [valuesBelow, if_neg h0, if_neg h1, if_neg h2, if_pos h3]⟩
  by_cases h4 : (100 : Int) < p
  · right; right; right; right; left; exact ⟨h4, by omega, by rw [valuesBelow, if_neg h0, if_neg h1, if_neg h2, if_neg h3, if_pos h4]⟩
  by_cases h5 : (90 : Int) < p
  · right; right; right; right; right; left; exact ⟨h5, by omega, by rw [valuesBelow, if_neg h0, if_neg h1, if_neg h2, if_neg h3, if_neg h4, if_pos h5]⟩
  by_cases h6 : (50 : Int) < p
  · right; right; right; right; right; right; left; exact ⟨h6, by omega, by rw [valuesBelow, if_neg h0, if_neg h1, if_neg h2, if_neg h3, if_neg h4, if_neg h5, if_pos h6]⟩
  by_cases h7 : (40 : Int) < p
  · right; right; right; right; right; right; right; left; exact ⟨h7, by omega, by rw [valuesBelow, if_neg h0, if_neg h1, if_neg h2, if_neg h3, if_neg h4, if_neg h5, if_neg h6, if_pos h7]⟩
  by_cases h8 : (10 : Int) < p
  · right; right; right; right; right; right; right; right; left; exact ⟨h8, by omega, by rw [valuesBelow, if_neg h0, if_neg h1, if_neg h2, if_neg h3, if_neg h4, if_neg h5, if_neg h6, if_neg h7, if_pos h8]⟩
  by_cases h9 : (9 : Int) < p
  · right; right; right; right; right; right; right; right; right; left; exact ⟨h9, by omega, by rw [valuesBelow, if_neg h0, if_neg h1, if_neg h2, if_neg h3, if_neg h4, if_neg h5, if_neg h6, if_neg h7, if_neg h8, if_pos h9]⟩
  by_cases h10 : (5 : Int) < p
  · right; right; right; right; right; right; right; right; right; right; left; exact ⟨h10, by omega, by rw [valuesBelow, if_neg h0, if_neg h1, if_neg h2, if_neg h3, if_neg h4, if_neg h5, if_neg h6, if_neg h7, if_neg h8, if_neg h9, if_pos h10]⟩
  by_cases h11 : (4 : Int) < p
  · right; right; right; right; right; right; right; right; right; right; right; left; exact ⟨h11, by omega, by rw [valuesBelow, if_neg h0, if_neg h1, if_neg h2, if_neg h3, if_neg h4, if_neg h5, if_neg h6, if_neg h7, if_neg h8, if_neg h9, if_neg h10, if_pos h11]⟩
  by_cases h12 : (1 : Int) < p
  · right; right; right; right; right; right; right; right; right; right; right; right; left; exact ⟨h12, by omega, by rw [valuesBelow, if_neg h0, if_neg h1, if_neg h2, if_neg h3, if_neg h4, if_neg h5, if_neg h6, if_neg h7, if_neg h8, if_neg h9, if_neg h10, if_neg h11, if_pos h12]⟩
  right; right; right; right; right; right; right; right; right; right; right; right; right; exact ⟨by omega, by rw [valuesBelow, if_neg h0, if_neg h1, if_neg h2, if_neg h3, if_neg h4, if_neg h5, if_neg h6, if_neg h7, if_neg h8, if_neg h9, if_neg h10, if_neg h11, if_neg h12]⟩

theorem valuesBelow_nonneg (p : Int) : 0 ≤ valuesBelow p := by
  rcases valuesBelow_cases p with h | h | h | h | h | h | h | h | h | h | h | h | h | h <;> omega

theorem table_values : ∀ t ∈ romanToArabic,
    t.val = 1000 ∨ t.val = 900 ∨ t.val = 500 ∨ t.val = 400 ∨ t.val = 100 ∨
      t.val = 90 ∨ t.val = 50 ∨ t.val = 40 ∨ t.val = 10 ∨ t.val = 9 ∨ t.val = 5 ∨
      t.val = 4 ∨ t.val = 1 := by
  decide

theorem valuesBelow_step : ∀ t ∈ romanToArabic, ∀ p : Int, t.val < p →
    t.val + valuesBelow t.val ≤ valuesBelow p := by
  intro t ht p hp
  have hv := table_values t ht
  rcases valuesBelow_cases t.val with
    h | h | h | h | h | h | h | h | h | h | h | h | h | h <;>
  rcases valuesBelow_cases p with
    g | g | g | g | g | g | g | g | g | g | g | g | g | g <;> omega

theorem scan_bound (ts : List Transformation) : ∀ (p s r p1 s1 r1 : Int),
    1 ≤ p → 1 ≤ s → s ≤ 3 → (∀ t ∈ ts, t ∈ romanToArabic) →
    scanTokens p s r ts = Except.ok (p1, s1, r1) →
    r1 ≤ r + (3 - s) * p + 3 * valuesBelow p := by
  induction ts with
  | nil =>
    intro p s r p1 s1 r1 hp h1 h3 _ h
    simp only [scanTokens, Except.ok.injEq, Prod.mk.injEq] at h
    have hnn : 0 ≤ (3 - s) * p := mul_nonneg (by omega) (by omega)
    have hb := valuesBelow_nonneg p
    linarith [h.2.2]
  | cons t ts ih =>
    intro p s r p1 s1 r1 hp h1 h3 hmem h
    have ht := hmem t (List.mem_cons_self _ _)
    have htpos := (table_facts t ht).2.2.1
    have hmem1 : ∀ x ∈ ts, x ∈ romanToArabic := fun x hx => hmem x (List.mem_cons_of_mem _ hx)
    simp only [scanTokens] at h
    split_ifs at h with hlt hsame
    by_cases heq : p = t.val
    · have e : nextSame p s t.val = s + 1 := by simp [nextSame, heq]
      rw [e] at h hsame
      have hb := ih t.val (s + 1) (r + t.val) p1 s1 r1 htpos (by omega) (by omega) hmem1 h
      have e2 : (3 - (s + 1)) * t.val = (3 - s) * t.val - t.val := by ring
      rw [heq]
      linarith
    · have e : nextSame p s t.val = 1 := by simp [nextSame, heq]
      rw [e] at h
      have hb := ih t.val 1 (r + t.val) p1 s1 r1 htpos (by omega) (by omega) hmem1 h
      have hstep := valuesBelow_step t ht p (by omega)
      have hnn : 0 ≤ (3 - s) * p := mul_nonneg (by omega) (by omega)
      linarith

theorem scan_init_bound (ts : List Transformation) (hmem : ∀ t ∈ ts, t ∈ romanToArabic)
    (p1 s1 r1 : Int) (h : scanTokens 3999 0 0 ts = Except.ok (p1, s1, r1)) : r1 ≤ 9327 := by
  cases ts with
  | nil =>
    simp only [scanTokens, Except.ok.injEq, Prod.mk.injEq] at h
    omega
  | cons t ts =>
    have ht := hmem t (List.mem_cons_self _ _)
    have htpos := (table_facts t ht).2.2
    rw [scan_first t ht] at h
    have hb := scan_bound ts t.val 1 (0 + t.val) p1 s1 r1 (by omega) (by norm_num) (by norm_num)
      (fun x hx => hmem x (List.mem_cons_of_mem _ hx)) (by simpa using h)
    have hstep := valuesBelow_step t ht 1001 (by omega)
    have e : valuesBelow 1001 = 3109 := by decide
    rw [e] at hstep
    linarith

theorem parseRoman_ok_iff (s : GoString) (v : Int) :
    parseRoman s = some (v, none) ↔ ∃ ts, ValidDigits ts ∧ s = concatStr ts ∧ v = digitSum ts := by
  constructor
  · intro h
    obtain ⟨ts, p1, s1, hmem, hcat, hscan⟩ :=
      parseLoop_extract s s.length (parseInit s) v (Nat.le_refl _) h
    have hsum := scan_sum ts _ _ _ _ _ _ hscan
    have hsum0 : v = 0 + digitSum ts := hsum
    exact ⟨ts, (scan_init_ok_iff ts hmem).mp ⟨_, hscan⟩, hcat, by omega⟩
  · rintro ⟨ts, hvalid, rfl, rfl⟩
    obtain ⟨⟨p1, s1, r1⟩, hscan⟩ := (scan_init_ok_iff ts hvalid.1).mpr hvalid
    have hsum := scan_sum ts _ _ _ _ _ _ hscan
    rw [parseRoman_tokens ts hvalid.1 hvalid.2.1, hscan, hsum]
    simp [scanResult]

theorem wrapInt_eq (x : Int) (h : inInt64 x) : wrapInt x = x := by
  unfold inInt64 at h
  unfold wrapInt
  have e1 : (2 : Int) ^ 63 = 9223372036854775808 := by norm_num
  have e2 : (2 : Int) ^ 64 = 18446744073709551616 := by norm_num
  rw [e1] at h
  rw [e1, e2]
  omega

theorem availableOperations_add :
    availableOperations (lit "+") = some (fun v1 v2 => (wrapInt (v1 + v2), none)) := rfl

theorem availableOperations_sub :
    availableOperations (lit "-") = some (fun v1 v2 => (wrapInt (v1 - v2), none)) := rfl

theorem availableOperations_mul :
    availableOperations (lit "*") = some (fun v1 v2 => (wrapInt (v1 * v2), none)) := rfl

theorem availableOperations_div :
    availableOperations (lit "/") = some (fun v1 v2 =>
      if v2 = 0 then (0, some Err.divideByZero) else (wrapInt (Int.tdiv v1 v2), none)) := rfl

/-- The loop body of `main` once both operands are classified and the first
one is within `[minOperand, maxOperand]`. -/
theorem mainLoopBody_classified (t0 op t2 : GoString) (a b : Int) (sysA sysB : NumeralSystem)
    (h0 : parseOperand t0 = some (a, sysA, none)) (h2 : parseOperand t2 = some (b, sysB, none))
    (ha1 : 1 ≤ a) (ha2 : a ≤ 10) :
    mainLoopBody [t0, op, t2] =
      if sysA ≠ sysB then some (Outcome.panic Err.sameNumeralSystems)
      else
        match availableOperations op with
        | none => some (Outcome.panic Err.operationNotFound)
        | some operationFn =>
          match operationFn a b with
          | (_, some e) => some (Outcome.panic e)
          | (result, none) => render sysA result := by
  have hr : ¬ (a < minOperand ∨ a > maxOperand) := by
    unfold minOperand maxOperand; omega
  simp only [mainLoopBody, h0, h2, if_neg hr]

theorem render_roman_ok (v : Int) (str : GoString) (h : convertToRoman v = some (str, none)) :
    render NumeralSystem.Roman v = some (Outcome.println str) := by
  simp only [render, h]

theorem render_roman_low (v : Int) (h : v ≤ 0) :
    render NumeralSystem.Roman v = some (Outcome.panic (Err.beyondRomanBoundaries v)) := by
  have hc : convertToRoman v = some ([], some (Err.beyondRomanBoundaries v)) := by
    rw [convertToRoman, if_pos (Or.inl h)]
  simp only [render, hc]

theorem convertToRoman_in_range (v : Int) (h1 : 1 ≤ v) (h2 : v ≤ 3999) :
    convertToRoman v = some (canonicalNumeral v, none) := by
  obtain ⟨a, b, c, d, ha, hb, hc, hd, hv, hcanon⟩ := canonicalNumeral_tokens v (by omega) h2
  rw [hcanon, ← hv]
  exact convertToRoman_digits a b c d ha hb hc hd (by omega)

theorem opResult_bounds (op : GoString) (a b : Int) (ha1 : 1 ≤ a) (ha2 : a ≤ 10)
    (hb1 : 1 ≤ b) (hb2 : b ≤ 10) : -9 ≤ opResult op a b ∧ opResult op a b ≤ 100 := by
  unfold opResult
  split_ifs
  · omega
  · omega
  · constructor <;> nlinarith
  · rw [Int.tdiv_eq_ediv (by omega) (by omega)]
    interval_cases b <;> omega

/-- The loop body of `main` on operands of one numeral system with values in
`[1, 10]` and one of the four operators: the result is rendered in that
system. -/
theorem mainLoopBody_same_system (t0 op t2 : GoString) (a b : Int) (sys : NumeralSystem)
    (h0 : parseOperand t0 = some (a, sys, none)) (h2 : parseOperand t2 = some (b, sys, none))
    (ha1 : 1 ≤ a) (ha2 : a ≤ 10) (hb1 : 1 ≤ b) (hb2 : b ≤ 10)
    (hop : op ∈ [lit "+", lit "-", lit "*", lit "/"]) :
    mainLoopBody [t0, op, t2] = render sys (opResult op a b) := by
  rw [mainLoopBody_classified t0 op t2 a b sys sys h0 h2 ha1 ha2, if_neg (by simp)]
  have hbnd := opResult_bounds op a b ha1 ha2 hb1 hb2
  have hin : inInt64 (opResult op a b) := by
    unfold inInt64
    have e1 : (2 : Int) ^ 63 = 9223372036854775808 := by norm_num
    rw [e1]
    omega
  simp only [List.mem_cons, List.mem_singleton, List.not_mem_nil, or_false] at hop
  rcases hop with rfl | rfl | rfl | rfl
  · have e : opResult (lit "+") a b = a + b := rfl
    rw [e] at hin ⊢
    rw [availableOperations_add]
    simp only [wrapInt_eq _ hin]
  · have e : opResult (lit "-") a b = a - b := rfl
    rw [e] at hin ⊢
    rw [availableOperations_sub]
    simp only [wrapInt_eq _ hin]
  · have e : opResult (lit "*") a b = a * b := rfl
    rw [e] at hin ⊢
    rw [availableOperations_mul]
    simp only [wrapInt_eq _ hin]
  · have e : opResult (lit "/") a b = Int.tdiv a b := rfl
    rw [e] at hin ⊢
    rw [availableOperations_div]
    have hb0 : ¬ b = 0 := by omega
    simp only [if_neg hb0, wrapInt_eq _ hin]

theorem parseOperand_atoi (t : GoString) (n : Int) (h : atoi t = some n) :
    parseOperand t = some (n, NumeralSystem.Arabic, none) := by
  simp only [parseOperand, h]

theorem parseOperand_roman (t : GoString) (r : Int) (h : atoi t = none)
    (hr : parseRoman t = some (r, none)) :
    parseOperand t = some (r, NumeralSystem.Roman, none) := by
  simp only [parseOperand, h, hr]

theorem parseOperand_undefined (t : GoString) (v : Int) (e : Err) (h : atoi t = none)
    (hr : parseRoman t = some (v, some e)) :
    parseOperand t = some (0, NumeralSystem.Undefined, some Err.undefinedNumeralSystem) := by
  simp only [parseOperand, h, hr]

theorem digitSum_ge_length (ts : List Transformation) (h : ∀ t ∈ ts, t ∈ romanToArabic) :
    (ts.length : Int) ≤ digitSum ts := by
  induction ts with
  | nil => simp [digitSum]
  | cons t ts ih =>
    have hv := (table_facts t (h t (List.mem_cons_self _ _))).2.2.1
    have := ih (fun x hx => h x (List.mem_cons_of_mem _ hx))
    simp only [digitSum, List.map_cons, List.sum_cons, List.length_cons] at this ⊢
    push_cast
    omega

/-! ## Properties of the encoder trace, the accepted language and the loop of `main` -/

/-- C11, as stated, fails at `v = 6`: `convertToRoman 6` appends `V` and then `I`, a digit
of smaller value. -/
theorem convertTrace_six_decreases :
    convertToRoman 6 = some (lit "VI", none) ∧
      convertTrace 6 6 = some [⟨lit "V", 5⟩, ⟨lit "I", 1⟩] ∧
      ¬ List.Chain' (fun t1 t2 : Transformation => ¬ t2.val < t1.val)
        [⟨lit "V", 5⟩, ⟨lit "I", 1⟩] := by
  refine ⟨by decide, by decide, ?_⟩
  intro h
  exact (List.chain'_cons.mp h).1 (by decide)

/-- C11, amended. For every `v` with `1 ≤ v ≤ 3999` the entries appended by
`convertToRoman v` never increase in value: no appended digit is followed by a digit of
larger value. -/
theorem convertTrace_nonincreasing (v : Int) (h1 : 1 ≤ v) (h2 : v ≤ 3999) :
    ∃ ts, convertTrace v.toNat v = some ts ∧ convertToRoman v = some (concatStr ts, none) ∧
      List.Chain' (fun t1 t2 : Transformation => t2.val ≤ t1.val) ts := by
  obtain ⟨a, b, c, d, ha, hb, hc, hd, hv, -⟩ := canonicalNumeral_tokens v (by omega) h2
  subst hv
  obtain ⟨p, s, hscan⟩ := scan_canonTokens a b c d ha hb hc hd
  exact ⟨canonTokens a b c d,
    convertTrace_tokens _ a b c d ha hb hc hd (canonTokens_length_le_value a b c d ha hb hc hd),
    convertToRoman_digits a b c d ha hb hc hd (by omega), scan_ok_chain _ _ _ _ _ hscan⟩

/-- Witness of the amended C11 at `v = 1994`. -/
theorem convertTrace_nonincreasing_witness :
    (1 : Int) ≤ 1994 ∧ (1994 : Int) ≤ 3999 ∧
      ∃ ts, convertTrace (1994 : Int).toNat 1994 = some ts ∧
        convertToRoman 1994 = some (concatStr ts, none) ∧
        List.Chain' (fun t1 t2 : Transformation => t2.val ≤ t1.val) ts :=
  ⟨by decide, by decide, convertTrace_nonincreasing 1994 (by decide) (by decide)⟩

/-- C12, as stated, fails: `CMCM` is accepted with value 1800 and is shorter than
`convertToRoman 1800 = MDCCC`; `IVIV` is accepted with value 8 and is as long as
`convertToRoman 8 = VIII` without being equal to it. -/
theorem greedy_not_minimal :
    parseRoman (lit "CMCM") = some (1800, none) ∧
      convertToRoman 1800 = some (lit "MDCCC", none) ∧
      (lit "CMCM").length < (lit "MDCCC").length ∧
      parseRoman (lit "IVIV") = some (8, none) ∧
      convertToRoman 8 = some (lit "VIII", none) ∧
      (lit "IVIV").length = (lit "VIII").length ∧ lit "IVIV" ≠ lit "VIII" := by
  decide

/-- C12, amended. Among the outputs of `convertToRoman` the representation is unique: if
`convertToRoman w` returns `s` for some `w` in `[1, 3999]` and `parseRoman s` returns `v`,
then `v = w`, so `s` is `convertToRoman v` (and has its length). -/
theorem convertToRoman_unique_output (w : Int) (hw1 : 1 ≤ w) (hw2 : w ≤ 3999) (s : GoString)
    (v : Int) (hs : convertToRoman w = some (s, none)) (hp : parseRoman s = some (v, none)) :
    v = w ∧ convertToRoman v = some (s, none) := by
  obtain ⟨a, b, c, d, ha, hb, hc, hd, hv, -⟩ := canonicalNumeral_tokens w (by omega) hw2
  subst hv
  rw [convertToRoman_digits a b c d ha hb hc hd (by omega)] at hs
  injection hs with hs
  injection hs with hs
  subst hs
  rw [parseRoman_canonTokens a b c d ha hb hc hd] at hp
  injection hp with hp
  injection hp with hp
  subst hp
  exact ⟨rfl, convertToRoman_digits a b c d ha hb hc hd (by omega)⟩

/-- Witness of the amended C12 at `w = 1800` and `s = MDCCC`. -/
theorem convertToRoman_unique_output_witness :
    convertToRoman 1800 = some (lit "MDCCC", none) ∧
      parseRoman (lit "MDCCC") = some (1800, none) ∧ (1800 : Int) = 1800 :=
  ⟨by decide, by decide,
    (convertToRoman_unique_output 1800 (by decide) (by decide) (lit "MDCCC") 1800 (by decide)
      (by decide)).1⟩

/-- C13. For every `v` with `1 ≤ v ≤ 3999` the loop of `convertToRoman` finishes within 15
passes, each appending one entry; every pass with a positive remaining value `w` finds an
entry of positive value not above `w` and subtracts it; `v = 3888` needs all 15 passes. -/
theorem convertToRoman_steps (v : Int) (h1 : 1 ≤ v) (h2 : v ≤ 3999) :
    (∃ ts, convertTrace 15 v = some ts ∧ ts.length ≤ 15 ∧
        convertLoop 15 v [] = some (concatStr ts) ∧
        convertToRoman v = some (concatStr ts, none)) ∧
      (∀ (w : Int) (r : GoString), 0 < w → ∃ t ∈ romanToArabic, 0 < t.val ∧ t.val ≤ w ∧
        convertInner w r romanToArabic = (r ++ t.str, w - t.val) ∧ w - t.val < w) ∧
      (∃ ts, convertTrace 15 3888 = some ts ∧ ts.length = 15) ∧
      convertLoop 14 3888 [] = none := by
  refine ⟨?_, ?_, ⟨canonTokens 3 8 8 8, by decide, by decide⟩, by decide⟩
  · obtain ⟨a, b, c, d, ha, hb, hc, hd, hv, -⟩ := canonicalNumeral_tokens v (by omega) h2
    subst hv
    have hlen := canonTokens_length_le a b c d ha hb hc hd
    refine ⟨canonTokens a b c d, convertTrace_tokens 15 a b c d ha hb hc hd hlen, hlen, ?_,
      convertToRoman_digits a b c d ha hb hc hd (by omega)⟩
    simpa using convertLoop_tokens 15 a b c d ha hb hc hd [] hlen
  · intro w r hw
    obtain ⟨t, ht, hmem, hpos, hle⟩ := convertPick_pos w hw
    refine ⟨t, hmem, hpos, hle, ?_, by omega⟩
    rw [convertInner_pickEntry, ht]

/-- Witness of C13 at `v = 3888`. -/
theorem convertToRoman_steps_witness :
    (1 : Int) ≤ 3888 ∧ (3888 : Int) ≤ 3999 ∧
      ∃ ts, convertTrace 15 3888 = some ts ∧ ts.length ≤ 15 ∧
        convertLoop 15 3888 [] = some (concatStr ts) ∧
        convertToRoman 3888 = some (concatStr ts, none) :=
  ⟨by decide, by decide, (convertToRoman_steps 3888 (by decide) (by decide)).1⟩

/-- C14. `parseOperand t` returns `(n, Arabic, nil)` when `strconv.Atoi` succeeds with `n`;
otherwise `(r, Roman, nil)` when `parseRoman t` succeeds with `r`; otherwise
`(0, Undefined, error)`.  It returns an error exactly when both parsers fail, and it always
returns. -/
theorem parseOperand_order (t : GoString) :
    (∀ n, atoi t = some n → parseOperand t = some (n, NumeralSystem.Arabic, none)) ∧
      (atoi t = none → ∀ r, parseRoman t = some (r, none) →
        parseOperand t = some (r, NumeralSystem.Roman, none)) ∧
      (atoi t = none → (∃ v e, parseRoman t = some (v, some e)) →
        parseOperand t = some (0, NumeralSystem.Undefined, some Err.undefinedNumeralSystem)) ∧
      ((∃ v sys e, parseOperand t = some (v, sys, some e)) ↔
        (atoi t = none ∧ ∃ v e, parseRoman t = some (v, some e))) ∧
      (∃ res, parseOperand t = some res) := by
  have hundef : atoi t = none → (∃ v e, parseRoman t = some (v, some e)) →
      parseOperand t = some (0, NumeralSystem.Undefined, some Err.undefinedNumeralSystem) := by
    rintro h ⟨v, e, hr⟩
    exact parseOperand_undefined t v e h hr
  have hcases : (∃ n, parseOperand t = some (n, NumeralSystem.Arabic, none) ∧ atoi t = some n) ∨
      (∃ r, parseOperand t = some (r, NumeralSystem.Roman, none) ∧ atoi t = none ∧
        parseRoman t = some (r, none)) ∨
      (parseOperand t = some (0, NumeralSystem.Undefined, some Err.undefinedNumeralSystem) ∧
        atoi t = none ∧ ∃ v e, parseRoman t = some (v, some e)) := by
    cases ha : atoi t with
    | some n => exact Or.inl ⟨n, parseOperand_atoi t n ha, rfl⟩
    | none =>
      obtain ⟨⟨v, e⟩, hr⟩ := parseRoman_total t
      cases e with
      | none => exact Or.inr (Or.inl ⟨v, parseOperand_roman t v ha hr, rfl, hr⟩)
      | some err =>
        exact Or.inr (Or.inr ⟨parseOperand_undefined t v err ha hr, rfl, v, err, hr⟩)
  refine ⟨parseOperand_atoi t, fun h r hr => parseOperand_roman t r h hr, hundef, ⟨?_, ?_⟩, ?_⟩
  · rintro ⟨v, sys, e, he⟩
    rcases hcases with ⟨n, hp, -⟩ | ⟨r, hp, -, -⟩ | ⟨-, ha, hr⟩
    · rw [hp] at he; simp at he
    · rw [hp] at he; simp at he
    · exact ⟨ha, hr⟩
  · rintro ⟨ha, hr⟩
    exact ⟨_, _, _, hundef ha hr⟩
  · rcases hcases with ⟨n, hp, -⟩ | ⟨r, hp, -, -⟩ | ⟨hp, -, -⟩ <;> exact ⟨_, hp⟩

/-- Witness of C14 at `-7` (Arabic), `X` (Roman) and `ABC` (neither). -/
theorem parseOperand_order_witness :
    parseOperand (lit "-7") = some (-7, NumeralSystem.Arabic, none) ∧
      parseOperand (lit "X") = some (10, NumeralSystem.Roman, none) ∧
      parseOperand (lit "ABC") =
        some (0, NumeralSystem.Undefined, some Err.undefinedNumeralSystem) :=
  ⟨(parseOperand_order (lit "-7")).1 (-7) (by decide),
    (parseOperand_order (lit "X")).2.1 (by decide) 10 (by decide),
    (parseOperand_order (lit "ABC")).2.2.1 (by decide)
      ⟨0, Err.unknownDigits (lit "ABC"), by decide⟩⟩

/-- C15. When one operand classifies as Arabic and the other as Roman, each without error,
the loop body of `main` panics and prints nothing, whatever the operator; with the first
operand in `[1, 10]` the error is the one of mismatched numeral systems.  `5 + V` is
rejected in this way. -/
theorem mainLoopBody_mixed_systems (t0 op t2 : GoString) (a b : Int)
    (sysA sysB : NumeralSystem)
    (h0 : parseOperand t0 = some (a, sysA, none)) (h2 : parseOperand t2 = some (b, sysB, none))
    (hmix : (sysA = NumeralSystem.Arabic ∧ sysB = NumeralSystem.Roman) ∨
      (sysA = NumeralSystem.Roman ∧ sysB = NumeralSystem.Arabic)) :
    (∃ e, mainLoopBody [t0, op, t2] = some (Outcome.panic e)) ∧
      (1 ≤ a → a ≤ 10 →
        mainLoopBody [t0, op, t2] = some (Outcome.panic Err.sameNumeralSystems)) ∧
      mainLoopBody [lit "5", lit "+", lit "V"] =
        some (Outcome.panic Err.sameNumeralSystems) := by
  have hne : sysA ≠ sysB := by
    rcases hmix with ⟨rfl, rfl⟩ | ⟨rfl, rfl⟩ <;> decide
  have hin : 1 ≤ a → a ≤ 10 →
      mainLoopBody [t0, op, t2] = some (Outcome.panic Err.sameNumeralSystems) := by
    intro ha1 ha2
    rw [mainLoopBody_classified t0 op t2 a b sysA sysB h0 h2 ha1 ha2, if_pos hne]
  refine ⟨?_, hin, by decide⟩
  by_cases hr : a < minOperand ∨ a > maxOperand
  · exact ⟨Err.operand1Boundaries a, by simp only [mainLoopBody, h0, if_pos hr]⟩
  · exact ⟨_, hin (by unfold minOperand maxOperand at hr; omega)
      (by unfold minOperand maxOperand at hr; omega)⟩

/-- Witness of C15 at the tokens `V`, `*`, `5`. -/
theorem mainLoopBody_mixed_systems_witness :
    parseOperand (lit "V") = some (5, NumeralSystem.Roman, none) ∧
      parseOperand (lit "5") = some (5, NumeralSystem.Arabic, none) ∧
      ∃ e, mainLoopBody [lit "V", lit "*", lit "5"] = some (Outcome.panic e) :=
  ⟨by decide, by decide,
    (mainLoopBody_mixed_systems (lit "V") (lit "*") (lit "5") 5 5 NumeralSystem.Roman
      NumeralSystem.Arabic (by decide) (by decide) (Or.inr ⟨rfl, rfl⟩)).1⟩

/-- C16. The entry `/` of `availableOperations` returns an error exactly when `v2 = 0` and
otherwise, absent overflow, the quotient truncated toward zero; `+`, `-` and `*` never
return an error and, absent overflow, return `v1 + v2`, `v1 - v2`, `v1 * v2`.
`7 / 2 = 3`, `7 / -2 = -3`, and the line `10 / 0` panics with the division error. -/
theorem availableOperations_semantics (v1 v2 : Int) :
    (∃ f, availableOperations (lit "/") = some f ∧
        ((∃ e, (f v1 v2).2 = some e) ↔ v2 = 0) ∧
        (v2 ≠ 0 → inInt64 (Int.tdiv v1 v2) → f v1 v2 = (Int.tdiv v1 v2, none))) ∧
      (∃ f, availableOperations (lit "+") = some f ∧ (f v1 v2).2 = none ∧
        (inInt64 (v1 + v2) → f v1 v2 = (v1 + v2, none))) ∧
      (∃ f, availableOperations (lit "-") = some f ∧ (f v1 v2).2 = none ∧
        (inInt64 (v1 - v2) → f v1 v2 = (v1 - v2, none))) ∧
      (∃ f, availableOperations (lit "*") = some f ∧ (f v1 v2).2 = none ∧
        (inInt64 (v1 * v2) → f v1 v2 = (v1 * v2, none))) ∧
      Int.tdiv 7 2 = 3 ∧ Int.tdiv 7 (-2) = -3 ∧
      mainLoopBody [lit "10", lit "/", lit "0"] = some (Outcome.panic Err.divideByZero) := by
  refine ⟨⟨_, availableOperations_div, ?_, ?_⟩, ⟨_, availableOperations_add, rfl, ?_⟩,
    ⟨_, availableOperations_sub, rfl, ?_⟩, ⟨_, availableOperations_mul, rfl, ?_⟩,
    by decide, by decide, by decide⟩
  · by_cases h : v2 = 0
    · simp [h]
    · simp [h]
  · intro h hin
    simp only [if_neg h, wrapInt_eq _ hin]
  · intro hin; simp only [wrapInt_eq _ hin]
  · intro hin; simp only [wrapInt_eq _ hin]
  · intro hin; simp only [wrapInt_eq _ hin]

/-- Witness of C16 at `7 / -2`. -/
theorem availableOperations_semantics_witness :
    ∃ f, availableOperations (lit "/") = some f ∧ f 7 (-2) = (-3, none) := by
  obtain ⟨f, hf, -, hq⟩ := (availableOperations_semantics 7 (-2)).1
  exact ⟨f, hf, hq (by decide) (by unfold inInt64; decide)⟩

/-- On the results that operands in `[1, 10]` can give, `itoa` is the decimal
rendering written out digit by digit, and `atoi` reads it back. -/
theorem itoa_small (n : Int) (h1 : -9 ≤ n) (h2 : n ≤ 100) :
    itoa n = decimalRendering n ∧ atoi (itoa n) = some n := by
  interval_cases n <;> exact ⟨by decide, by decide⟩

/-- C17. On a line whose operands have values `a`, `b` in `[1, 10]` and whose operator is
one of `+ - * /`: with two Roman operands the loop body prints `convertToRoman (a op b)`
when `1 ≤ a op b` and panics, printing nothing, when `a op b ≤ 0`; with two Arabic operands
it prints the decimal rendering of `a op b`: an optional `-` and the decimal digits without
leading zeros, which `strconv.Atoi` reads back as `a op b`.  `III + IV` prints `VII`;
`3 + 4` prints `7`, `2 - 5` prints `-3`, `10 * 10` prints `100` and `7 / 2` prints `3`. -/
theorem mainLoopBody_echo (t0 op t2 : GoString) (a b : Int)
    (ha1 : 1 ≤ a) (ha2 : a ≤ 10) (hb1 : 1 ≤ b) (hb2 : b ≤ 10)
    (hop : op ∈ [lit "+", lit "-", lit "*", lit "/"]) :
    (parseOperand t0 = some (a, NumeralSystem.Roman, none) →
      parseOperand t2 = some (b, NumeralSystem.Roman, none) →
        (1 ≤ opResult op a b → ∃ str, convertToRoman (opResult op a b) = some (str, none) ∧
          mainLoopBody [t0, op, t2] = some (Outcome.println str)) ∧
        (opResult op a b ≤ 0 → mainLoopBody [t0, op, t2] =
          some (Outcome.panic (Err.beyondRomanBoundaries (opResult op a b))))) ∧
      (parseOperand t0 = some (a, NumeralSystem.Arabic, none) →
        parseOperand t2 = some (b, NumeralSystem.Arabic, none) →
        mainLoopBody [t0, op, t2] = some (Outcome.println (itoa (opResult op a b)))) ∧
      mainLoopBody [lit "III", lit "+", lit "IV"] = some (Outcome.println (lit "VII")) ∧
      mainLoopBody [lit "I", lit "-", lit "I"] =
        some (Outcome.panic (Err.beyondRomanBoundaries 0)) ∧
      mainLoopBody [lit "I", lit "/", lit "II"] =
        some (Outcome.panic (Err.beyondRomanBoundaries 0)) ∧
      (parseOperand t0 = some (a, NumeralSystem.Arabic, none) →
        parseOperand t2 = some (b, NumeralSystem.Arabic, none) →
        mainLoopBody [t0, op, t2] =
          some (Outcome.println (decimalRendering (opResult op a b))) ∧
        atoi (decimalRendering (opResult op a b)) = some (opResult op a b)) ∧
      mainLoopBody [lit "3", lit "+", lit "4"] = some (Outcome.println (lit "7")) ∧
      mainLoopBody [lit "2", lit "-", lit "5"] = some (Outcome.println (lit "-3")) ∧
      mainLoopBody [lit "10", lit "*", lit "10"] = some (Outcome.println (lit "100")) ∧
      mainLoopBody [lit "7", lit "/", lit "2"] = some (Outcome.println (lit "3")) := by
  have hbnd := opResult_bounds op a b ha1 ha2 hb1 hb2
  have hitoa := itoa_small (opResult op a b) hbnd.1 hbnd.2
  have harabic : parseOperand t0 = some (a, NumeralSystem.Arabic, none) →
      parseOperand t2 = some (b, NumeralSystem.Arabic, none) →
      mainLoopBody [t0, op, t2] = some (Outcome.println (itoa (opResult op a b))) := by
    intro h0 h2
    rw [mainLoopBody_same_system t0 op t2 a b _ h0 h2 ha1 ha2 hb1 hb2 hop]
    rfl
  refine ⟨?_, harabic, by decide, by decide, by decide, ?_, by decide, by decide, by decide,
    by decide⟩
  · intro h0 h2
    have hbody := mainLoopBody_same_system t0 op t2 a b _ h0 h2 ha1 ha2 hb1 hb2 hop
    constructor
    · intro hpos
      have hc := convertToRoman_in_range (opResult op a b) hpos (by omega)
      exact ⟨_, hc, by rw [hbody, render_roman_ok _ _ hc]⟩
    · intro hlow
      rw [hbody, render_roman_low _ hlow]
  · intro h0 h2
    rw [← hitoa.1]
    exact ⟨harabic h0 h2, hitoa.2⟩

/-- Witness of C17 at `IX * VIII`, which prints `LXXII`, and at `9 * 8`, which prints
`72`. -/
theorem mainLoopBody_echo_witness :
    opResult (lit "*") 9 8 = 72 ∧ convertToRoman 72 = some (lit "LXXII", none) ∧
      (∃ str, convertToRoman (opResult (lit "*") 9 8) = some (str, none) ∧
        mainLoopBody [lit "IX", lit "*", lit "VIII"] = some (Outcome.println str)) ∧
      decimalRendering 72 = lit "72" ∧
      mainLoopBody [lit "9", lit "*", lit "8"] =
        some (Outcome.println (decimalRendering (opResult (lit "*") 9 8))) :=
  ⟨by decide, by decide,
    ((mainLoopBody_echo (lit "IX") (lit "*") (lit "VIII") 9 8 (by decide) (by decide)
      (by decide) (by decide) (by decide)).1 (by decide) (by decide)).1 (by decide),
    by decide,
    ((mainLoopBody_echo (lit "9") (lit "*") (lit "8") 9 8 (by decide) (by decide)
      (by decide) (by decide) (by decide)).2.2.2.2.2.1 (by decide) (by decide)).1⟩

/-- C18, as stated, fails: `VV` is accepted with value 10, and `convertToRoman 10` returns
`X`, not `VV`; `X` decodes to 10 as well. -/
theorem decode_not_injective :
    parseRoman (lit "VV") = some (10, none) ∧ convertToRoman 10 = some (lit "X", none) ∧
      lit "X" ≠ lit "VV" ∧ parseRoman (lit "X") = some (10, none) := by
  decide

/-- C18, amended. When `parseRoman s` succeeds with `v`, `convertToRoman v` succeeds
exactly when `s` is not empty and `v ≤ 3999`; its result is then the canonical numeral of
`v`, decodes to `v` again, and is `s` exactly when `s` is that canonical numeral. -/
theorem reencode_accepted (s : GoString) (v : Int) (h : parseRoman s = some (v, none)) :
    ((∃ c, convertToRoman v = some (c, none)) ↔ (s ≠ [] ∧ v ≤ 3999)) ∧
      (∀ c, convertToRoman v = some (c, none) →
        c = canonicalNumeral v ∧ parseRoman c = some (v, none) ∧
          (c = s ↔ s = canonicalNumeral v)) := by
  obtain ⟨ts, hvalid, hcat, hsum⟩ := (parseRoman_ok_iff s v).mp h
  have hpos : s ≠ [] ↔ 1 ≤ v := by
    have h1 := digitSum_ge_length ts hvalid.1
    have h2 := concatStr_length ts hvalid.1
    constructor
    · intro hne
      have : ts ≠ [] := by
        rintro rfl
        exact hne hcat
      have : 0 < ts.length := List.length_pos.mpr this
      omega
    · intro hv hs
      rw [hs] at hcat
      have : (concatStr ts).length = 0 := by rw [← hcat]; rfl
      have : ts = [] := List.length_eq_zero.mp (by omega)
      subst this
      simp [digitSum] at hsum
      omega
  have hrange : ∀ c, convertToRoman v = some (c, none) → 1 ≤ v ∧ v ≤ 3999 := by
    intro c hc
    by_contra hout
    have hcond : v ≤ 0 ∨ v > maxRomanNumber := by unfold maxRomanNumber; omega
    rw [convertToRoman, if_pos hcond] at hc
    simp at hc
  constructor
  · constructor
    · rintro ⟨c, hc⟩
      exact ⟨hpos.mpr (hrange c hc).1, (hrange c hc).2⟩
    · rintro ⟨hne, hle⟩
      exact ⟨_, convertToRoman_in_range v (hpos.mp hne) hle⟩
  · intro c hc
    obtain ⟨hv1, hv2⟩ := hrange c hc
    rw [convertToRoman_in_range v hv1 hv2] at hc
    injection hc with hc
    injection hc with hc
    subst hc
    obtain ⟨a, b, c1, d, ha, hb, hc1, hd, hv, hcanon⟩ := canonicalNumeral_tokens v (by omega) hv2
    refine ⟨rfl, ?_, ⟨fun e => e.symm, fun e => e.symm⟩⟩
    rw [hcanon, ← hv]
    exact parseRoman_canonTokens a b c1 d ha hb hc1 hd

/-- Witness of the amended C18 at `s = VV`, `v = 10`. -/
theorem reencode_accepted_witness :
    parseRoman (lit "VV") = some (10, none) ∧
      ∀ c, convertToRoman 10 = some (c, none) →
        c = canonicalNumeral 10 ∧ parseRoman c = some (10, none) ∧
          (c = lit "VV" ↔ lit "VV" = canonicalNumeral 10) :=
  ⟨by decide, (reencode_accepted (lit "VV") 10 (by decide)).2⟩

/-- C19. `parseRoman s` succeeds exactly when `s` is the concatenation of the symbols of a
list of table entries whose values never increase and in which no value occurs four times
in a row.  Such a list is unique, each of its entries is the first match of the scan at its
position, the returned value is the sum of its values, and that sum is at most 9327. -/
theorem parseRoman_accepted_language (s : GoString) :
    ((∃ v, parseRoman s = some (v, none)) ↔ ∃ ts, ValidDigits ts ∧ s = concatStr ts) ∧
      (∀ ts1 ts2, ValidDigits ts1 → ValidDigits ts2 → s = concatStr ts1 → s = concatStr ts2 →
        ts1 = ts2) ∧
      (∀ ts, ValidDigits ts → s = concatStr ts →
        parseRoman s = some (digitSum ts, none) ∧ digitSum ts ≤ 9327 ∧
          ∀ pre t post, ts = pre ++ t :: post → firstMatch (concatStr (t :: post)) = some t) ∧
      3 * (romanToArabic.map (fun t => t.val)).sum = 9327 := by
  refine ⟨⟨?_, ?_⟩, ?_, ?_, by decide⟩
  · rintro ⟨v, hv⟩
    obtain ⟨ts, hvalid, hcat, -⟩ := (parseRoman_ok_iff s v).mp hv
    exact ⟨ts, hvalid, hcat⟩
  · rintro ⟨ts, hvalid, hcat⟩
    exact ⟨digitSum ts, (parseRoman_ok_iff s _).mpr ⟨ts, hvalid, hcat, rfl⟩⟩
  · intro ts1 ts2 h1 h2 e1 e2
    exact concatStr_unique ts1 ts2 h1.1 h2.1 h1.2.1 h2.2.1 (e1.symm.trans e2)
  · intro ts hvalid hcat
    have hp := (parseRoman_ok_iff s _).mpr ⟨ts, hvalid, hcat, rfl⟩
    refine ⟨hp, ?_, ?_⟩
    · obtain ⟨⟨p1, s1, r1⟩, hscan⟩ := (scan_init_ok_iff ts hvalid.1).mpr hvalid
      have hb := scan_init_bound ts hvalid.1 p1 s1 r1 hscan
      have hsum := scan_sum ts _ _ _ _ _ _ hscan
      omega
    · intro pre t post hts
      rw [concatStr_cons]
      apply firstMatch_token t post (hvalid.1 t (by rw [hts]; simp))
      intro y hy
      have hchain : List.Chain' (fun t1 t2 : Transformation => t2.val ≤ t1.val) (t :: post) := by
        have := hvalid.2.1
        rw [hts] at this
        exact this.right_of_append
      exact ⟨hvalid.1 y (by rw [hts]; simp [List.mem_of_mem_head? hy]),
        (List.chain'_cons'.mp hchain).1 y hy⟩

/-- Witness of C19 at `MCMXCIV`, read as `M CM XC IV`, and at the longest accepted sum. -/
theorem parseRoman_accepted_language_witness :
    parseRoman (lit "MCMXCIV") = some (1994, none) ∧
      (∃ ts, ValidDigits ts ∧ lit "MCMXCIV" = concatStr ts) ∧
      parseRoman (lit "MMMCMCMCMDDDCDCDCDCCCXCXCXCLLLXLXLXLXXXIXIXIXVVVIVIVIVIII") =
        some (9327, none) :=
  ⟨by decide, (parseRoman_accepted_language (lit "MCMXCIV")).1.mp ⟨1994, by decide⟩, by decide⟩

end KataCalc
